import Mathlib

/-!
Verification of the focus-controller core of the AFMforLLM repository
(`focus.py`, with the supporting `utils.py` / `token_counter.py`).

Shallow embedding conventions:
* Python strings are embedded as `List Char` (`Str`), so that Python's
  whitespace `str.split()` and slicing can be reasoned about by list induction.
* Python `float` is embedded as `ℝ`; Python `int` as `ℤ` (as `ℕ` where the
  source value is manifestly non-negative, e.g. token counts and ids).
* The external collaborators (embedder, token counter, compressor) are
  injected into `FocusManager` in the source; here they are a record of
  functions (`Collaborators`).  The token-counter *fallback* implementation
  of `token_counter.py` (no tiktoken: `max(1, len(text.split()))`, `0` for
  the empty string) is embedded concretely as `tcCount`.
* `build_context` is embedded as a pure function from the stored items to a
  `BuildResult`, which carries the produced messages and stats together with
  the updated items and two ghost observations that merely record what the
  corresponding Python code does on the side: `outcomes` records, per turn,
  the planned (desired) fidelity and the achieved fidelity (`none` = the
  turn was omitted), and `compressCalls` records the ids of turns for which
  the compressor was invoked.  `tagged` is the list of emitted turn messages
  tagged with the id of the originating turn; the `messages` field of the
  result is literally the preamble messages followed by the untagged
  `tagged` list, exactly as the Python code builds its `messages` list.
-/

abbrev Str := List Char

/-! ### utils.py -/

/-- Characters treated as whitespace by Python's `str.split()`.  (Lean's
`Char.isWhitespace` covers space, tab, CR, LF, which is what occurs in the
repository's data; Python additionally treats `\x0b`/`\x0c` as whitespace.) -/
def isWS (c : Char) : Bool := c.isWhitespace

/-- Helper for `pyWords`: accumulates the current word (reversed) in `acc`. -/
def pyWordsAux : Str → Str → List Str
  | [], acc => if acc = [] then [] else [acc.reverse]
  | c :: cs, acc =>
      if isWS c then
        if acc = [] then pyWordsAux cs []
        else acc.reverse :: pyWordsAux cs []
      else pyWordsAux cs (c :: acc)

/-- Python's `text.split()` (split on runs of whitespace, dropping empties). -/
def pyWords (t : Str) : List Str := pyWordsAux t []

/-- Python's `str.strip()`: drop whitespace from both ends. -/
def pyStrip (t : Str) : Str :=
  ((t.dropWhile isWS).reverse.dropWhile isWS).reverse

/-- Python's `" ".join(words)`. -/
def joinSp : List Str → Str
  | [] => []
  | [w] => w
  | w :: ws => w ++ ' ' :: joinSp ws

/-- `utils.cosine`: dot product of the (assumed normalized) vectors,
`sum(x * y for x, y in zip(a, b))`. -/
noncomputable def cosine (a b : List ℝ) : ℝ :=
  ((a.zip b).map (fun p => p.1 * p.2)).sum

/-- Greedy word loop of `utils.truncate_to_tokens`: keep taking whole words
while the accumulated token count stays within `target`; `break` at the
first word that does not fit. -/
def truncGo (count : Str → ℕ) (target : ℤ) : List Str → ℤ → List Str
  | [], _ => []
  | w :: ws, used =>
      if target < used + (count w : ℤ) then []
      else w :: truncGo count target ws (used + (count w : ℤ))

/-- `utils.truncate_to_tokens text target counter`. -/
def truncateToTokens (t : Str) (target : ℤ) (count : Str → ℕ) : Str :=
  joinSp (truncGo count target (pyWords t) 0)

/-! ### token_counter.py -/

/-- `TokenCounter.count` in its dependency-free fallback form (tiktoken
absent): `0` for the empty string, else `max(1, len(text.split()))`. -/
def tcCount (t : Str) : ℕ :=
  if t = [] then 0 else max 1 (pyWords t).length

/-! ### focus.py: data model -/

/-- `Fidelity` constants of `focus.py`. -/
inductive Fidelity
  | FULL
  | COMPRESSED
  | PLACEHOLDER
deriving DecidableEq, Repr, BEq

/-- `MemoryItem` of `focus.py`.  The wall-clock `created_at_s` field is
diagnostic only (never read by the core) and is not modeled. -/
structure MemoryItem where
  id : ℕ
  role : Str
  content : Str
  tokenLen : ℕ
  embedding : Option (List ℝ)
  compressionState : Fidelity
  compressedText : Option Str
  lastScore : ℝ

/-- `FocusConfig` of `focus.py`. -/
structure FocusConfig where
  highThreshold : ℝ
  midThreshold : ℝ
  recencyHalfLife : ℤ
  maxPlaceholderTokens : ℤ
  defaultCompressRatio : ℝ

/-- The default `FocusConfig()` values. -/
noncomputable def defaultFocusConfig : FocusConfig :=
  { highThreshold := 0.55
    midThreshold := 0.30
    recencyHalfLife := 12
    maxPlaceholderTokens := 12
    defaultCompressRatio := 0.35 }

/-- The injected external collaborators of `FocusManager.__init__`:
embedder (`encode`), token counter (`count`) and compressor (`compress`,
taking text, target token count and the query hint). -/
structure Collaborators where
  encode : Str → List ℝ
  count : Str → ℕ
  compress : Str → ℤ → Str → Str

/-- `FocusManager` state: injected collaborators, config, stored items and
the next id.  `__init__` performs no validation of the config. -/
structure FocusManager where
  C : Collaborators
  cfg : FocusConfig
  items : List MemoryItem
  nextId : ℕ

/-- `FocusManager.__init__(embedder, token_counter, compressor, config)`:
stores the collaborators, takes the given config (or the default), starts
with no items and `_next_id = 1`.  No check of the config is performed. -/
noncomputable def FocusManager.init (C : Collaborators) (cfg : Option FocusConfig) :
    FocusManager :=
  { C := C, cfg := cfg.getD defaultFocusConfig, items := [], nextId := 1 }

/-- `FocusManager.add_message(role, content)`: assigns the next id, caches
the token length and the embedding, appends the item. -/
def addMessage (C : Collaborators) (items : List MemoryItem) (nextId : ℕ)
    (role content : Str) : List MemoryItem × ℕ × MemoryItem :=
  let item : MemoryItem :=
    { id := nextId
      role := role
      content := content
      tokenLen := C.count content
      embedding := some (C.encode content)
      compressionState := Fidelity.FULL
      compressedText := none
      lastScore := 0 }
  (items ++ [item], nextId + 1, item)

/-! ### focus.py: scoring and planning -/

/-- The embedding actually used for an item during scoring: the cached one,
recomputed when it is falsy (`None` or the empty list), as in
`if not it.embedding: it.embedding = self.embedder.encode(it.content)`. -/
def embUsed (C : Collaborators) (it : MemoryItem) : List ℝ :=
  match it.embedding with
  | some e => if e.isEmpty then C.encode it.content else e
  | none => C.encode it.content

/-- The score formula of `build_context`:
`max(0.0, sim) * (0.25 + 0.75 * 0.5 ** (turns_ago / max(1, half_life)))`
with `turns_ago = (n - 1) - idx`. -/
noncomputable def scoreOf (cfg : FocusConfig) (sim : ℝ) (n idx : ℕ) : ℝ :=
  max 0 sim *
    (0.25 + 0.75 *
      (0.5 : ℝ) ^ (((n - 1 - idx : ℕ) : ℝ) / ((max 1 cfg.recencyHalfLife : ℤ) : ℝ)))

/-- One step of the scoring loop: computes the similarity and score for the
item at index `idx` and records the embedding and `last_score` on it. -/
noncomputable def scoreStep (C : Collaborators) (cfg : FocusConfig)
    (qEmb : List ℝ) (n : ℕ) (idx : ℕ) (it : MemoryItem) : ℝ × MemoryItem :=
  let e := embUsed C it
  let s := scoreOf cfg (cosine qEmb e) n idx
  (s, { it with embedding := some e, lastScore := s })

/-- The scoring loop (`for idx, it in enumerate(self._items)`), carrying the
running index. -/
noncomputable def scoreList (C : Collaborators) (cfg : FocusConfig)
    (qEmb : List ℝ) (n : ℕ) : ℕ → List MemoryItem → List (ℝ × MemoryItem)
  | _, [] => []
  | idx, it :: rest =>
      scoreStep C cfg qEmb n idx it :: scoreList C cfg qEmb n (idx + 1) rest

/-- The full scoring pass of `build_context` over the stored items. -/
noncomputable def scorePass (C : Collaborators) (cfg : FocusConfig)
    (items : List MemoryItem) (q : Str) : List (ℝ × MemoryItem) :=
  scoreList C cfg (C.encode q) items.length 0 items

/-- The fidelity plan from a score (`if score >= high … elif score >= mid …`). -/
noncomputable def planOf (cfg : FocusConfig) (s : ℝ) : Fidelity :=
  if cfg.highThreshold ≤ s then Fidelity.FULL
  else if cfg.midThreshold ≤ s then Fidelity.COMPRESSED
  else Fidelity.PLACEHOLDER

/-- Lookup in the `desired_map` dict: the *last* insertion for a key wins. -/
def dictLookup (l : List (ℕ × Fidelity)) (k : ℕ) : Option Fidelity :=
  ((l.filter (fun p => p.1 == k)).map (fun p => p.2)).getLast?

/-! ### focus.py: stub construction -/

/-- The body of the stub's reference marker, without its trailing space:
`[ref #{id} • {role}]`. -/
def stubPfxCore (it : MemoryItem) : Str :=
  "[ref #".data ++ (toString it.id).data ++ " • ".data ++ it.role ++ "]".data

/-- The stub's reference marker `f"[ref #{it.id} • {it.role}] "`. -/
def stubPfx (it : MemoryItem) : Str := stubPfxCore it ++ [' ']

/-- Python's `int(x)` on a float: truncation toward zero. -/
noncomputable def pyTrunc (x : ℝ) : ℤ := if 0 ≤ x then ⌊x⌋ else ⌈x⌉

/-- The compression target of `compress_item`:
`max(1, int(it.token_len * default_compress_ratio))`. -/
noncomputable def compressTarget (cfg : FocusConfig) (it : MemoryItem) : ℤ :=
  max 1 (pyTrunc ((it.tokenLen : ℝ) * cfg.defaultCompressRatio))

/-- `FocusManager._make_stub`: first line of the stripped content (at most
200 characters), prefixed by the reference marker, truncated so that the
remainder fits `max_placeholder_tokens` minus the marker's cost; if no room
remains, the stripped marker alone. -/
def makeStub (cfg : FocusConfig) (count : Str → ℕ) (it : MemoryItem) : Str :=
  let head := (((pyStrip it.content).takeWhile (fun c => c ≠ '\n')).take 200)
  let room : ℤ := max 0 (cfg.maxPlaceholderTokens - (count (stubPfx it) : ℤ))
  if room ≤ 0 then pyStrip (stubPfx it)
  else stubPfx it ++ truncateToTokens head room count

/-! ### focus.py: budget packing -/

/-- The mutable state of the packing loop of `build_context`.  `tagged` is
the list of emitted turn messages, tagged with the originating turn id;
`outcomes` and `compCalls` are ghost observations (see the header). -/
structure PackState where
  tagged : List (ℕ × Str × Str)
  budgetLeft : ℤ
  used : ℕ
  rawT : ℕ
  compT : ℕ
  plcT : ℕ
  nExp : ℕ
  nComp : ℕ
  nStub : ℕ
  itemsOut : List MemoryItem
  outcomes : List (ℕ × Fidelity × Option Fidelity)
  compCalls : List ℕ

/-- The initial packing state (`messages = []`, `budget_left = budget`,
all counters zero). -/
def initState (b : ℤ) : PackState :=
  { tagged := [], budgetLeft := b, used := 0, rawT := 0, compT := 0, plcT := 0
    nExp := 0, nComp := 0, nStub := 0, itemsOut := [], outcomes := [], compCalls := [] }

/-- The stub attempt (shared tail of all three cascade branches): `try_add`
the stub; on success account it as a placeholder, else the turn is absent.
`d` is the desired fidelity being recorded in the ghost outcome. -/
def stubTry (cfg : FocusConfig) (count : Str → ℕ) (d : Fidelity)
    (st : PackState) (it : MemoryItem) : PackState :=
  let stub := makeStub cfg count it
  let need := count stub
  if (need : ℤ) ≤ st.budgetLeft then
    { st with
      tagged := st.tagged ++ [(it.id, it.role, stub)]
      budgetLeft := st.budgetLeft - need
      used := st.used + need
      plcT := st.plcT + need
      nStub := st.nStub + 1
      itemsOut := st.itemsOut ++ [{ it with compressionState := Fidelity.PLACEHOLDER }]
      outcomes := st.outcomes ++ [(it.id, d, some Fidelity.PLACEHOLDER)] }
  else
    { st with
      itemsOut := st.itemsOut ++ [it]
      outcomes := st.outcomes ++ [(it.id, d, none)] }

/-- The compressed attempt: `comp = it.compressed_text or compress_item(it)`
(a stored empty string is falsy and triggers recomputation), store it, then
`try_add`; on failure fall through to the stub attempt. -/
noncomputable def compTry (C : Collaborators) (cfg : FocusConfig) (q : Str) (d : Fidelity)
    (st : PackState) (it : MemoryItem) : PackState :=
  let recompute : Bool := match it.compressedText with
    | none => true
    | some c => c.isEmpty
  let comp := if recompute then C.compress it.content (compressTarget cfg it) q
              else (it.compressedText.getD [])
  let st1 := if recompute then { st with compCalls := st.compCalls ++ [it.id] } else st
  let it1 := { it with compressedText := some comp }
  let need := C.count comp
  if (need : ℤ) ≤ st1.budgetLeft then
    { st1 with
      tagged := st1.tagged ++ [(it.id, it.role, comp)]
      budgetLeft := st1.budgetLeft - need
      used := st1.used + need
      compT := st1.compT + need
      nComp := st1.nComp + 1
      itemsOut := st1.itemsOut ++ [{ it1 with compressionState := Fidelity.COMPRESSED }]
      outcomes := st1.outcomes ++ [(it.id, d, some Fidelity.COMPRESSED)] }
  else stubTry cfg C.count d st1 it1

/-- The full attempt: `try_add` the original content (cost by the token
counter, `used` accounted with the cached `token_len`); on failure fall
through to the compressed attempt. -/
noncomputable def fullTry (C : Collaborators) (cfg : FocusConfig) (q : Str)
    (st : PackState) (it : MemoryItem) : PackState :=
  let need := C.count it.content
  if (need : ℤ) ≤ st.budgetLeft then
    { st with
      tagged := st.tagged ++ [(it.id, it.role, it.content)]
      budgetLeft := st.budgetLeft - need
      used := st.used + it.tokenLen
      rawT := st.rawT + it.tokenLen
      nExp := st.nExp + 1
      itemsOut := st.itemsOut ++ [{ it with compressionState := Fidelity.FULL }]
      outcomes := st.outcomes ++ [(it.id, Fidelity.FULL, some Fidelity.FULL)] }
  else compTry C cfg q Fidelity.FULL st it

/-- One iteration of the packing loop: dispatch on the desired fidelity from
`desired_map[it.id]`. -/
noncomputable def packOne (C : Collaborators) (cfg : FocusConfig) (q : Str)
    (plan : List (ℕ × Fidelity)) (st : PackState) (it : MemoryItem) : PackState :=
  match (dictLookup plan it.id).getD Fidelity.PLACEHOLDER with
  | Fidelity.FULL => fullTry C cfg q st it
  | Fidelity.COMPRESSED => compTry C cfg q Fidelity.COMPRESSED st it
  | Fidelity.PLACEHOLDER => stubTry cfg C.count Fidelity.PLACEHOLDER st it

/-- The packing loop over the chronologically ordered items. -/
noncomputable def packAll (C : Collaborators) (cfg : FocusConfig) (q : Str)
    (plan : List (ℕ × Fidelity)) (b1 : ℤ) (ordered : List MemoryItem) : PackState :=
  ordered.foldl (packOne C cfg q plan) (initState b1)

/-- The role string `"system"` used for the preamble message. -/
def sysRole : Str := "system".data

/-- The preamble step of `build_context`: `if system_preamble:` (truthy:
present and non-empty) attempt to add it; if it does not fit it is silently
dropped.  Returns the preamble messages and the remaining budget. -/
def preStep (count : Str → ℕ) (budget : ℤ) (pre : Option Str) :
    List (Str × Str) × ℤ :=
  match pre with
  | some p =>
      if p ≠ [] ∧ ((count p : ℤ) ≤ budget) then ([(sysRole, p)], budget - count p)
      else ([], budget)
  | none => ([], budget)

/-! ### focus.py: build_context -/

/-- The statistics record returned by `build_context` (the Python code wraps
these integers in `float(...)`). -/
structure BuildStats where
  budget : ℤ
  used : ℕ
  rawTokens : ℕ
  compressedTokens : ℕ
  placeholderTokens : ℕ
  expandedCount : ℕ
  compressedCount : ℕ
  stubCount : ℕ
  itemsTotal : ℕ
  itemsPlannedFull : ℕ
  itemsPlannedCompressed : ℕ
  itemsPlannedStub : ℕ

/-- The result of `build_context`: see the header comment for the fields. -/
structure BuildResult where
  preMsgs : List (Str × Str)
  tagged : List (ℕ × Str × Str)
  messages : List (Str × Str)
  stats : BuildStats
  itemsOut : List MemoryItem
  outcomes : List (ℕ × Fidelity × Option Fidelity)
  compressCalls : List ℕ

/-- `FocusManager.build_context(current_query, budget_tokens, system_preamble)`:
score all items, plan fidelities, add the preamble, pack the items in
ascending-id (chronological) order, and assemble messages and stats. -/
noncomputable def buildContext (C : Collaborators) (cfg : FocusConfig)
    (items : List MemoryItem) (q : Str) (budget : ℤ) (pre : Option Str) :
    BuildResult :=
  let scored := scorePass C cfg items q
  let plan := scored.map (fun pr => (pr.2.id, planOf cfg pr.1))
  let items1 := scored.map (fun pr => pr.2)
  let pm := preStep C.count budget pre
  let ordered := List.insertionSort (fun a b => a.id ≤ b.id) items1
  let stF := packAll C cfg q plan pm.2 ordered
  { preMsgs := pm.1
    tagged := stF.tagged
    messages := pm.1 ++ stF.tagged.map (fun t => (t.2.1, t.2.2))
    stats :=
      { budget := budget
        used := stF.used
        rawTokens := stF.rawT
        compressedTokens := stF.compT
        placeholderTokens := stF.plcT
        expandedCount := stF.nExp
        compressedCount := stF.nComp
        stubCount := stF.nStub
        itemsTotal := items.length
        itemsPlannedFull :=
          (scored.filter (fun pr => dictLookup plan pr.2.id == some Fidelity.FULL)).length
        itemsPlannedCompressed :=
          (scored.filter (fun pr => dictLookup plan pr.2.id == some Fidelity.COMPRESSED)).length
        itemsPlannedStub :=
          (scored.filter (fun pr => dictLookup plan pr.2.id == some Fidelity.PLACEHOLDER)).length }
    itemsOut := stF.itemsOut
    outcomes := stF.outcomes
    compressCalls := stF.compCalls }

/-! ### Packing invariants -/

/-- Budget/accounting invariant of the packing loop (needs each packed item
to satisfy `token_len = count(content)`, which `add_message` establishes):
the remaining budget is non-negative, `used` plus the remaining budget is
constant, and the token costs of the emitted turn messages sum to `used`. -/
def PBud (count : Str → ℕ) (total : ℤ) (st : PackState) : Prop :=
  0 ≤ st.budgetLeft ∧
  (st.used : ℤ) + st.budgetLeft = total ∧
  ((st.tagged.map (fun t => count t.2.2)).sum = st.used)

/-- Counting invariant of the packing loop: the three token buckets sum to
`used`, and the three counters sum to the number of emitted turn messages. -/
def PCnt (st : PackState) : Prop :=
  st.rawT + st.compT + st.plcT = st.used ∧
  st.nExp + st.nComp + st.nStub = st.tagged.length

lemma stubTry_pbud (cfg : FocusConfig) (count : Str → ℕ) (d : Fidelity)
    (st : PackState) (it : MemoryItem) (total : ℤ) (h : PBud count total st) :
    PBud count total (stubTry cfg count d st it) := by
  obtain ⟨h1, h2, h3⟩ := h
  simp only [stubTry]
  split_ifs with hfit
  · refine ⟨?_, ?_, ?_⟩ <;> dsimp only
    · omega
    · omega
    · simp [List.sum_append, h3]
  · exact ⟨h1, h2, h3⟩

lemma compTry_pbud (C : Collaborators) (cfg : FocusConfig) (q : Str) (d : Fidelity)
    (st : PackState) (it : MemoryItem) (total : ℤ) (h : PBud C.count total st) :
    PBud C.count total (compTry C cfg q d st it) := by
  obtain ⟨h1, h2, h3⟩ := h
  rcases hct : it.compressedText with _ | c
  · simp only [compTry, hct, if_true, eq_self_iff_true]
    split_ifs with hfit
    · refine ⟨?_, ?_, ?_⟩ <;> dsimp only
      · omega
      · omega
      · simp [List.sum_append, h3]
    · refine stubTry_pbud _ _ _ _ _ _ ⟨?_, ?_, ?_⟩ <;> dsimp only
      · omega
      · omega
      · simp [h3]
  · cases hemp : c.isEmpty
    · simp only [compTry, hct, hemp, Option.getD_some, Bool.false_eq_true, if_false]
      split_ifs with hfit
      · refine ⟨?_, ?_, ?_⟩ <;> dsimp only
        · omega
        · omega
        · simp [List.sum_append, h3]
      · refine stubTry_pbud _ _ _ _ _ _ ⟨?_, ?_, ?_⟩ <;> dsimp only
        · omega
        · omega
        · simp [h3]
    · simp only [compTry, hct, hemp, if_true, eq_self_iff_true]
      split_ifs with hfit
      · refine ⟨?_, ?_, ?_⟩ <;> dsimp only
        · omega
        · omega
        · simp [List.sum_append, h3]
      · refine stubTry_pbud _ _ _ _ _ _ ⟨?_, ?_, ?_⟩ <;> dsimp only
        · omega
        · omega
        · simp [h3]

lemma fullTry_pbud (C : Collaborators) (cfg : FocusConfig) (q : Str)
    (st : PackState) (it : MemoryItem) (total : ℤ)
    (hwf : it.tokenLen = C.count it.content) (h : PBud C.count total st) :
    PBud C.count total (fullTry C cfg q st it) := by
  obtain ⟨h1, h2, h3⟩ := h
  simp only [fullTry]
  split_ifs with hfit
  · refine ⟨?_, ?_, ?_⟩ <;> dsimp only
    · omega
    · omega
    · simp [List.sum_append, h3, hwf]
  · exact compTry_pbud C cfg q _ st it total ⟨h1, h2, h3⟩

lemma packOne_pbud (C : Collaborators) (cfg : FocusConfig) (q : Str)
    (plan : List (ℕ × Fidelity)) (st : PackState) (it : MemoryItem) (total : ℤ)
    (hwf : it.tokenLen = C.count it.content) (h : PBud C.count total st) :
    PBud C.count total (packOne C cfg q plan st it) := by
  unfold packOne
  cases (dictLookup plan it.id).getD Fidelity.PLACEHOLDER with
  | FULL => exact fullTry_pbud C cfg q st it total hwf h
  | COMPRESSED => exact compTry_pbud C cfg q _ st it total h
  | PLACEHOLDER => exact stubTry_pbud cfg C.count _ st it total h

lemma foldPack_pbud (C : Collaborators) (cfg : FocusConfig) (q : Str)
    (plan : List (ℕ × Fidelity)) (total : ℤ) :
    ∀ (l : List MemoryItem) (st : PackState),
      (∀ it ∈ l, it.tokenLen = C.count it.content) → PBud C.count total st →
      PBud C.count total (l.foldl (packOne C cfg q plan) st) := by
  intro l
  induction l with
  | nil => intro st _ h; exact h
  | cons it rest ih =>
      intro st hwf h
      exact ih _ (fun x hx => hwf x (List.mem_cons_of_mem _ hx))
        (packOne_pbud C cfg q plan st it total (hwf it (List.mem_cons_self _ _)) h)

lemma stubTry_pcnt (cfg : FocusConfig) (count : Str → ℕ) (d : Fidelity)
    (st : PackState) (it : MemoryItem) (h : PCnt st) :
    PCnt (stubTry cfg count d st it) := by
  obtain ⟨h1, h2⟩ := h
  simp only [stubTry]
  split_ifs with hfit
  · refine ⟨?_, ?_⟩ <;> dsimp only
    · omega
    · simp [List.length_append, h2]
      omega
  · exact ⟨h1, h2⟩

lemma compTry_pcnt (C : Collaborators) (cfg : FocusConfig) (q : Str) (d : Fidelity)
    (st : PackState) (it : MemoryItem) (h : PCnt st) :
    PCnt (compTry C cfg q d st it) := by
  obtain ⟨h1, h2⟩ := h
  rcases hct : it.compressedText with _ | c
  · simp only [compTry, hct, if_true, eq_self_iff_true]
    split_ifs with hfit
    · refine ⟨?_, ?_⟩ <;> dsimp only
      · omega
      · simp [List.length_append, h2]
        omega
    · exact stubTry_pcnt _ _ _ _ _ ⟨h1, h2⟩
  · cases hemp : c.isEmpty
    · simp only [compTry, hct, hemp, Option.getD_some, Bool.false_eq_true, if_false]
      split_ifs with hfit
      · refine ⟨?_, ?_⟩ <;> dsimp only
        · omega
        · simp [List.length_append, h2]
          omega
      · exact stubTry_pcnt _ _ _ _ _ ⟨h1, h2⟩
    · simp only [compTry, hct, hemp, if_true, eq_self_iff_true]
      split_ifs with hfit
      · refine ⟨?_, ?_⟩ <;> dsimp only
        · omega
        · simp [List.length_append, h2]
          omega
      · exact stubTry_pcnt _ _ _ _ _ ⟨h1, h2⟩

lemma fullTry_pcnt (C : Collaborators) (cfg : FocusConfig) (q : Str)
    (st : PackState) (it : MemoryItem) (h : PCnt st) :
    PCnt (fullTry C cfg q st it) := by
  obtain ⟨h1, h2⟩ := h
  simp only [fullTry]
  split_ifs with hfit
  · refine ⟨?_, ?_⟩ <;> dsimp only
    · omega
    · simp [List.length_append, h2]
      omega
  · exact compTry_pcnt C cfg q _ st it ⟨h1, h2⟩

lemma packOne_pcnt (C : Collaborators) (cfg : FocusConfig) (q : Str)
    (plan : List (ℕ × Fidelity)) (st : PackState) (it : MemoryItem) (h : PCnt st) :
    PCnt (packOne C cfg q plan st it) := by
  unfold packOne
  cases (dictLookup plan it.id).getD Fidelity.PLACEHOLDER with
  | FULL => exact fullTry_pcnt C cfg q st it h
  | COMPRESSED => exact compTry_pcnt C cfg q _ st it h
  | PLACEHOLDER => exact stubTry_pcnt cfg C.count _ st it h

lemma foldPack_pcnt (C : Collaborators) (cfg : FocusConfig) (q : Str)
    (plan : List (ℕ × Fidelity)) :
    ∀ (l : List MemoryItem) (st : PackState),
      PCnt st → PCnt (l.foldl (packOne C cfg q plan) st) := by
  intro l
  induction l with
  | nil => intro st h; exact h
  | cons it rest ih => intro st h; exact ih _ (packOne_pcnt C cfg q plan st it h)

/-! ### Facts about the preamble step and the scoring pass -/

lemma preStep_snd_le (count : Str → ℕ) (budget : ℤ) (pre : Option Str) :
    (preStep count budget pre).2 ≤ budget := by
  cases pre with
  | none => simp [preStep]
  | some p =>
      simp only [preStep]
      split_ifs with h
      · have := h.2
        simp only
        omega
      · simp

lemma preStep_snd_nonneg (count : Str → ℕ) (budget : ℤ) (pre : Option Str)
    (hb : 0 ≤ budget) : 0 ≤ (preStep count budget pre).2 := by
  cases pre with
  | none => simpa [preStep] using hb
  | some p =>
      simp only [preStep]
      split_ifs with h
      · have := h.2
        simp only
        omega
      · simpa using hb

lemma preStep_fst_len (count : Str → ℕ) (budget : ℤ) (pre : Option Str) :
    (preStep count budget pre).1.length ≤ 1 := by
  cases pre with
  | none => simp [preStep]
  | some p =>
      simp only [preStep]
      split_ifs <;> simp

lemma scoreList_mem (C : Collaborators) (cfg : FocusConfig) (qe : List ℝ) (n : ℕ) :
    ∀ (l : List MemoryItem) (idx : ℕ) (pr : ℝ × MemoryItem),
      pr ∈ scoreList C cfg qe n idx l →
      ∃ it ∈ l, pr.2.id = it.id ∧ pr.2.role = it.role ∧
        pr.2.content = it.content ∧ pr.2.tokenLen = it.tokenLen ∧
        pr.2.compressedText = it.compressedText := by
  intro l
  induction l with
  | nil => intro idx pr h; simp [scoreList] at h
  | cons it rest ih =>
      intro idx pr h
      rw [scoreList] at h
      rcases List.mem_cons.mp h with h1 | h2
      · refine ⟨it, List.mem_cons_self _ _, ?_⟩
        subst h1
        simp [scoreStep]
      · obtain ⟨x, hx, hp⟩ := ih (idx + 1) pr h2
        exact ⟨x, List.mem_cons_of_mem _ hx, hp⟩

lemma scoreList_length (C : Collaborators) (cfg : FocusConfig) (qe : List ℝ) (n : ℕ) :
    ∀ (l : List MemoryItem) (idx : ℕ),
      (scoreList C cfg qe n idx l).length = l.length := by
  intro l
  induction l with
  | nil => intro idx; rfl
  | cons it rest ih =>
      intro idx
      rw [scoreList]
      simp [ih]

lemma ordered_wf (C : Collaborators) (cfg : FocusConfig) (items : List MemoryItem)
    (q : Str) (hwf : ∀ it ∈ items, it.tokenLen = C.count it.content) :
    ∀ it2 ∈ List.insertionSort (fun a b => a.id ≤ b.id)
        ((scorePass C cfg items q).map (fun pr => pr.2)),
      it2.tokenLen = C.count it2.content := by
  intro it2 h2
  have h3 : it2 ∈ (scorePass C cfg items q).map (fun pr => pr.2) :=
    (List.Perm.mem_iff (List.perm_insertionSort _ _)).mp h2
  obtain ⟨pr, hpr, hpr2⟩ := List.mem_map.mp h3
  obtain ⟨it, hit, _, _, hcontent, htok, _⟩ := scoreList_mem C cfg _ _ items 0 pr hpr
  rw [← hpr2, htok, hcontent]
  exact hwf it hit

/-! ### Claims about budget accounting -/

/-- C1: for every call to `build_context` with stored turns (each carrying
its `add_message`-cached token length), any query, any positive budget and
any optional system preamble, the returned stats satisfy
`stats['used'] <= stats['budget']`. -/
theorem c1_used_le_budget (C : Collaborators) (cfg : FocusConfig)
    (items : List MemoryItem) (q : Str) (budget : ℤ) (pre : Option Str)
    (hb : 0 < budget)
    (hwf : ∀ it ∈ items, it.tokenLen = C.count it.content) :
    ((buildContext C cfg items q budget pre).stats.used : ℤ) ≤
      (buildContext C cfg items q budget pre).stats.budget := by
  have hinit : PBud C.count (preStep C.count budget pre).2
      (initState (preStep C.count budget pre).2) := by
    refine ⟨?_, ?_, ?_⟩ <;> simp [initState]
    exact preStep_snd_nonneg C.count budget pre (le_of_lt hb)
  have h := foldPack_pbud C cfg q
    ((scorePass C cfg items q).map (fun pr => (pr.2.id, planOf cfg pr.1)))
    (preStep C.count budget pre).2
    (List.insertionSort (fun a b => a.id ≤ b.id)
      ((scorePass C cfg items q).map (fun pr => pr.2)))
    (initState (preStep C.count budget pre).2)
    (ordered_wf C cfg items q hwf) hinit
  have hle := preStep_snd_le C.count budget pre
  simp only [buildContext, packAll]
  obtain ⟨g1, g2, _⟩ := h
  try dsimp only
  omega

/-- C1 witness: a concrete instantiation of `c1_used_le_budget`. -/
theorem c1_used_le_budget_witness :
    (0 : ℤ) < 7 ∧
    ((buildContext ⟨fun _ => [0], tcCount, fun _ _ _ => []⟩ defaultFocusConfig
        [] "q".data 7 none).stats.used : ℤ) ≤
      (buildContext ⟨fun _ => [0], tcCount, fun _ _ _ => []⟩ defaultFocusConfig
        [] "q".data 7 none).stats.budget :=
  ⟨by norm_num,
   c1_used_le_budget _ _ _ _ _ _ (by norm_num) (by intro it hit; simp at hit)⟩

/-- C9: for every call to `build_context`, the returned stats satisfy
`used = raw_tokens + compressed_tokens + placeholder_tokens`, and
`expanded_count + compressed_count + stub_count` equals the number of
emitted turn messages, which is the output length minus the number of
preamble messages (at most one). -/
theorem c9_stats_decomposition (C : Collaborators) (cfg : FocusConfig)
    (items : List MemoryItem) (q : Str) (budget : ℤ) (pre : Option Str) :
    (buildContext C cfg items q budget pre).stats.rawTokens +
        (buildContext C cfg items q budget pre).stats.compressedTokens +
        (buildContext C cfg items q budget pre).stats.placeholderTokens =
      (buildContext C cfg items q budget pre).stats.used ∧
    (buildContext C cfg items q budget pre).stats.expandedCount +
        (buildContext C cfg items q budget pre).stats.compressedCount +
        (buildContext C cfg items q budget pre).stats.stubCount =
      (buildContext C cfg items q budget pre).tagged.length ∧
    (buildContext C cfg items q budget pre).messages.length =
      (buildContext C cfg items q budget pre).preMsgs.length +
        (buildContext C cfg items q budget pre).tagged.length ∧
    (buildContext C cfg items q budget pre).preMsgs.length ≤ 1 := by
  have h := foldPack_pcnt C cfg q
    ((scorePass C cfg items q).map (fun pr => (pr.2.id, planOf cfg pr.1)))
    (List.insertionSort (fun a b => a.id ≤ b.id)
      ((scorePass C cfg items q).map (fun pr => pr.2)))
    (initState (preStep C.count budget pre).2)
    (by refine ⟨?_, ?_⟩ <;> simp [initState])
  obtain ⟨g1, g2⟩ := h
  have hpl := preStep_fst_len C.count budget pre
  simp only [buildContext, packAll]
  try dsimp only
  refine ⟨g1, g2, ?_, hpl⟩
  simp [List.length_append]

/-! ### Cascade correctness (achieved vs desired fidelity) -/

/-- A recorded packing outcome is acceptable when the achieved fidelity is
not "more expensive" than the desired one: FULL desired allows anything,
COMPRESSED desired forbids an achieved FULL, PLACEHOLDER desired allows only
an achieved PLACEHOLDER or omission. -/
def outcomeOK : ℕ × Fidelity × Option Fidelity → Bool
  | (_, Fidelity.FULL, _) => true
  | (_, Fidelity.COMPRESSED, a) =>
      match a with
      | some Fidelity.FULL => false
      | _ => true
  | (_, Fidelity.PLACEHOLDER, a) =>
      match a with
      | some Fidelity.PLACEHOLDER => true
      | none => true
      | _ => false

lemma outcomeOK_plc (i : ℕ) (d : Fidelity) :
    outcomeOK (i, d, some Fidelity.PLACEHOLDER) = true := by
  cases d <;> rfl

lemma outcomeOK_omit (i : ℕ) (d : Fidelity) : outcomeOK (i, d, none) = true := by
  cases d <;> rfl

lemma outcomeOK_comp (i : ℕ) (d : Fidelity) (hd : d ≠ Fidelity.PLACEHOLDER) :
    outcomeOK (i, d, some Fidelity.COMPRESSED) = true := by
  cases d
  · rfl
  · rfl
  · exact absurd rfl hd

lemma stubTry_out (cfg : FocusConfig) (count : Str → ℕ) (d : Fidelity)
    (st : PackState) (it : MemoryItem) (h : st.outcomes.all outcomeOK = true) :
    (stubTry cfg count d st it).outcomes.all outcomeOK = true := by
  simp only [stubTry]
  split_ifs with hfit <;>
    (dsimp only; rw [List.all_append]; simp [h, outcomeOK_plc, outcomeOK_omit])

lemma compTry_out (C : Collaborators) (cfg : FocusConfig) (q : Str) (d : Fidelity)
    (st : PackState) (it : MemoryItem) (hd : d ≠ Fidelity.PLACEHOLDER)
    (h : st.outcomes.all outcomeOK = true) :
    (compTry C cfg q d st it).outcomes.all outcomeOK = true := by
  rcases hct : it.compressedText with _ | c
  · simp only [compTry, hct, if_true, eq_self_iff_true]
    split_ifs with hfit
    · dsimp only
      rw [List.all_append]
      simp [h, outcomeOK_comp _ _ hd]
    · exact stubTry_out _ _ _ _ _ h
  · cases hemp : c.isEmpty
    · simp only [compTry, hct, hemp, Option.getD_some, Bool.false_eq_true, if_false]
      split_ifs with hfit
      · dsimp only
        rw [List.all_append]
        simp [h, outcomeOK_comp _ _ hd]
      · exact stubTry_out _ _ _ _ _ h
    · simp only [compTry, hct, hemp, if_true, eq_self_iff_true]
      split_ifs with hfit
      · dsimp only
        rw [List.all_append]
        simp [h, outcomeOK_comp _ _ hd]
      · exact stubTry_out _ _ _ _ _ h

lemma fullTry_out (C : Collaborators) (cfg : FocusConfig) (q : Str)
    (st : PackState) (it : MemoryItem) (h : st.outcomes.all outcomeOK = true) :
    (fullTry C cfg q st it).outcomes.all outcomeOK = true := by
  simp only [fullTry]
  split_ifs with hfit
  · dsimp only
    rw [List.all_append]
    simp [h, outcomeOK]
  · exact compTry_out C cfg q _ st it (by intro hcon; exact Fidelity.noConfusion hcon) h

lemma packOne_out (C : Collaborators) (cfg : FocusConfig) (q : Str)
    (plan : List (ℕ × Fidelity)) (st : PackState) (it : MemoryItem)
    (h : st.outcomes.all outcomeOK = true) :
    (packOne C cfg q plan st it).outcomes.all outcomeOK = true := by
  unfold packOne
  cases (dictLookup plan it.id).getD Fidelity.PLACEHOLDER with
  | FULL => exact fullTry_out C cfg q st it h
  | COMPRESSED =>
      exact compTry_out C cfg q _ st it (by intro hcon; exact Fidelity.noConfusion hcon) h
  | PLACEHOLDER => exact stubTry_out cfg C.count _ st it h

lemma foldPack_out (C : Collaborators) (cfg : FocusConfig) (q : Str)
    (plan : List (ℕ × Fidelity)) :
    ∀ (l : List MemoryItem) (st : PackState),
      st.outcomes.all outcomeOK = true →
      (l.foldl (packOne C cfg q plan) st).outcomes.all outcomeOK = true := by
  intro l
  induction l with
  | nil => intro st h; exact h
  | cons it rest ih => intro st h; exact ih _ (packOne_out C cfg q plan st it h)

/-- C3: in every call to `build_context`, every turn's recorded packing
outcome respects the fallback cascade: a turn planned FULL ends as FULL,
COMPRESSED, PLACEHOLDER or absent; a turn planned COMPRESSED never ends
FULL; a turn planned PLACEHOLDER ends only PLACEHOLDER or absent. -/
theorem c3_cascade_correct (C : Collaborators) (cfg : FocusConfig)
    (items : List MemoryItem) (q : Str) (budget : ℤ) (pre : Option Str) :
    (buildContext C cfg items q budget pre).outcomes.all outcomeOK = true := by
  have h := foldPack_out C cfg q
    ((scorePass C cfg items q).map (fun pr => (pr.2.id, planOf cfg pr.1)))
    (List.insertionSort (fun a b => a.id ≤ b.id)
      ((scorePass C cfg items q).map (fun pr => pr.2)))
    (initState (preStep C.count budget pre).2)
    (by simp [initState])
  simp only [buildContext, packAll]
  exact h

/-! ### Chronological emission order -/

lemma scoreList_map_id (C : Collaborators) (cfg : FocusConfig) (qe : List ℝ) (n : ℕ) :
    ∀ (l : List MemoryItem) (idx : ℕ),
      (scoreList C cfg qe n idx l).map (fun pr => pr.2.id) = l.map (fun it => it.id) := by
  intro l
  induction l with
  | nil => intro idx; rfl
  | cons it rest ih =>
      intro idx
      rw [scoreList]
      simp only [List.map_cons, ih]
      rfl

instance : IsTotal MemoryItem (fun a b => a.id ≤ b.id) :=
  ⟨fun a b => Nat.le_total a.id b.id⟩

instance : IsTrans MemoryItem (fun a b => a.id ≤ b.id) :=
  ⟨fun _ _ _ hab hbc => le_trans hab hbc⟩

lemma stubTry_tagged (cfg : FocusConfig) (count : Str → ℕ) (d : Fidelity)
    (st : PackState) (it : MemoryItem) :
    ∃ s, (stubTry cfg count d st it).tagged = st.tagged ++ s ∧
      List.Sublist (s.map (fun t => t.1)) [it.id] := by
  simp only [stubTry]
  split_ifs with hfit
  · exact ⟨[(it.id, it.role, makeStub cfg count it)], rfl, by simp⟩
  · exact ⟨[], by simp, by simp⟩

lemma compTry_tagged (C : Collaborators) (cfg : FocusConfig) (q : Str) (d : Fidelity)
    (st : PackState) (it : MemoryItem) :
    ∃ s, (compTry C cfg q d st it).tagged = st.tagged ++ s ∧
      List.Sublist (s.map (fun t => t.1)) [it.id] := by
  rcases hct : it.compressedText with _ | c
  · simp only [compTry, hct, if_true, eq_self_iff_true]
    split_ifs with hfit
    · exact ⟨[(it.id, it.role, C.compress it.content (compressTarget cfg it) q)],
        rfl, by simp⟩
    · exact stubTry_tagged cfg C.count d _ _
  · cases hemp : c.isEmpty
    · simp only [compTry, hct, hemp, Option.getD_some, Bool.false_eq_true, if_false]
      split_ifs with hfit
      · exact ⟨[(it.id, it.role, c)], rfl, by simp⟩
      · exact stubTry_tagged cfg C.count d _ _
    · simp only [compTry, hct, hemp, if_true, eq_self_iff_true]
      split_ifs with hfit
      · exact ⟨[(it.id, it.role, C.compress it.content (compressTarget cfg it) q)],
          rfl, by simp⟩
      · exact stubTry_tagged cfg C.count d _ _

lemma fullTry_tagged (C : Collaborators) (cfg : FocusConfig) (q : Str)
    (st : PackState) (it : MemoryItem) :
    ∃ s, (fullTry C cfg q st it).tagged = st.tagged ++ s ∧
      List.Sublist (s.map (fun t => t.1)) [it.id] := by
  simp only [fullTry]
  split_ifs with hfit
  · exact ⟨[(it.id, it.role, it.content)], rfl, by simp⟩
  · exact compTry_tagged C cfg q _ st it

lemma packOne_tagged (C : Collaborators) (cfg : FocusConfig) (q : Str)
    (plan : List (ℕ × Fidelity)) (st : PackState) (it : MemoryItem) :
    ∃ s, (packOne C cfg q plan st it).tagged = st.tagged ++ s ∧
      List.Sublist (s.map (fun t => t.1)) [it.id] := by
  unfold packOne
  cases (dictLookup plan it.id).getD Fidelity.PLACEHOLDER with
  | FULL => exact fullTry_tagged C cfg q st it
  | COMPRESSED => exact compTry_tagged C cfg q _ st it
  | PLACEHOLDER => exact stubTry_tagged cfg C.count _ st it

lemma foldPack_tagged (C : Collaborators) (cfg : FocusConfig) (q : Str)
    (plan : List (ℕ × Fidelity)) :
    ∀ (l : List MemoryItem) (st : PackState),
      ∃ t, (l.foldl (packOne C cfg q plan) st).tagged = st.tagged ++ t ∧
        List.Sublist (t.map (fun x => x.1)) (l.map (fun it => it.id)) := by
  intro l
  induction l with
  | nil => intro st; exact ⟨[], by simp, by simp⟩
  | cons it rest ih =>
      intro st
      obtain ⟨s, hs, hsub⟩ := packOne_tagged C cfg q plan st it
      obtain ⟨t, ht, htsub⟩ := ih (packOne C cfg q plan st it)
      refine ⟨s ++ t, ?_, ?_⟩
      · rw [List.foldl_cons, ht, hs, List.append_assoc]
      · rw [List.map_append, List.map_cons]
        have : [it.id] ++ rest.map (fun x => x.id) = it.id :: rest.map (fun x => x.id) := rfl
        rw [← this]
        exact List.Sublist.append hsub htsub

lemma preStep_fst_shape (count : Str → ℕ) (budget : ℤ) (pre : Option Str) :
    (preStep count budget pre).1 = [] ∨
    ∃ p, pre = some p ∧ (preStep count budget pre).1 = [(sysRole, p)] := by
  cases pre with
  | none => left; rfl
  | some p =>
      simp only [preStep]
      split_ifs with h
      · right; exact ⟨p, rfl, rfl⟩
      · left; rfl

/-- C4: in every call to `build_context` on a store with strictly increasing
ids (as `add_message` produces), the output is the preamble messages
followed by the emitted turn messages; the emitted turn messages carry
strictly ascending ids (chronological order, not score order); and a
preamble message, when present, is the first element of the output and has
the `system` role. -/
theorem c4_chronological_order (C : Collaborators) (cfg : FocusConfig)
    (items : List MemoryItem) (q : Str) (budget : ℤ) (pre : Option Str)
    (hids : items.Pairwise (fun a b => a.id < b.id)) :
    (buildContext C cfg items q budget pre).messages =
      (buildContext C cfg items q budget pre).preMsgs ++
        (buildContext C cfg items q budget pre).tagged.map (fun t => (t.2.1, t.2.2)) ∧
    (buildContext C cfg items q budget pre).tagged.Pairwise (fun a b => a.1 < b.1) ∧
    (∀ m ∈ (buildContext C cfg items q budget pre).preMsgs,
      m.1 = sysRole ∧
        (buildContext C cfg items q budget pre).messages.head? = some m) := by
  have hidm : (items.map (fun it => it.id)).Pairwise (fun a b => a < b) :=
    List.pairwise_map.mpr hids
  have hnd : (items.map (fun it => it.id)).Nodup :=
    List.Pairwise.imp (fun h => Nat.ne_of_lt h) hidm
  set items1 := (scorePass C cfg items q).map (fun pr => pr.2) with hitems1
  have hmapid : items1.map (fun it => it.id) = items.map (fun it => it.id) := by
    rw [hitems1, List.map_map]
    exact scoreList_map_id C cfg (C.encode q) items.length items 0
  set ordered := List.insertionSort (fun a b => a.id ≤ b.id) items1 with hordered
  have hsorted : ordered.Pairwise (fun a b => a.id ≤ b.id) :=
    List.sorted_insertionSort (fun a b : MemoryItem => a.id ≤ b.id) items1
  have hperm : List.Perm (ordered.map (fun it => it.id)) (items.map (fun it => it.id)) := by
    rw [← hmapid]
    exact List.Perm.map _ (List.perm_insertionSort _ _)
  have hndo : (ordered.map (fun it => it.id)).Nodup :=
    (List.Perm.nodup_iff hperm).mpr hnd
  have hle : (ordered.map (fun it => it.id)).Pairwise (fun a b => a ≤ b) :=
    List.pairwise_map.mpr hsorted
  have hlt : (ordered.map (fun it => it.id)).Pairwise (fun a b => a < b) :=
    List.Pairwise.imp (fun hab => lt_of_le_of_ne hab.1 hab.2) (List.Pairwise.and hle hndo)
  obtain ⟨t, ht, htsub⟩ := foldPack_tagged C cfg q
    ((scorePass C cfg items q).map (fun pr => (pr.2.id, planOf cfg pr.1)))
    ordered (initState (preStep C.count budget pre).2)
  have htag : (packAll C cfg q
      ((scorePass C cfg items q).map (fun pr => (pr.2.id, planOf cfg pr.1)))
      (preStep C.count budget pre).2 ordered).tagged = t := by
    rw [packAll, ht]
    rfl
  have hpair : t.Pairwise (fun a b => a.1 < b.1) :=
    List.pairwise_map.mp (List.Pairwise.sublist htsub hlt)
  refine ⟨by simp only [buildContext, packAll], ?_, ?_⟩
  · simp only [buildContext]
    rw [← hordered, htag]
    exact hpair
  · intro m hm
    rcases preStep_fst_shape C.count budget pre with hshape | ⟨p, hp, hshape⟩
    · simp only [buildContext] at hm
      rw [hshape] at hm
      simp at hm
    · simp only [buildContext] at hm ⊢
      rw [hshape] at hm ⊢
      simp only [List.mem_singleton] at hm
      subst hm
      exact ⟨rfl, rfl⟩

/-- C4 witness: a concrete instantiation of `c4_chronological_order`. -/
theorem c4_chronological_order_witness :
    ([] : List MemoryItem).Pairwise (fun a b => a.id < b.id) ∧
    ((buildContext ⟨fun _ => [0], tcCount, fun _ _ _ => []⟩ defaultFocusConfig
        [] "q".data 7 (some "hello there".data)).messages =
      (buildContext ⟨fun _ => [0], tcCount, fun _ _ _ => []⟩ defaultFocusConfig
        [] "q".data 7 (some "hello there".data)).preMsgs ++
        (buildContext ⟨fun _ => [0], tcCount, fun _ _ _ => []⟩ defaultFocusConfig
          [] "q".data 7 (some "hello there".data)).tagged.map (fun t => (t.2.1, t.2.2)) ∧
    (buildContext ⟨fun _ => [0], tcCount, fun _ _ _ => []⟩ defaultFocusConfig
        [] "q".data 7 (some "hello there".data)).tagged.Pairwise (fun a b => a.1 < b.1) ∧
    (∀ m ∈ (buildContext ⟨fun _ => [0], tcCount, fun _ _ _ => []⟩ defaultFocusConfig
        [] "q".data 7 (some "hello there".data)).preMsgs,
      m.1 = sysRole ∧
        (buildContext ⟨fun _ => [0], tcCount, fun _ _ _ => []⟩ defaultFocusConfig
          [] "q".data 7 (some "hello there".data)).messages.head? = some m)) :=
  ⟨List.Pairwise.nil,
   c4_chronological_order _ _ _ _ _ _ List.Pairwise.nil⟩

/-! ### Empty preamble handling -/

lemma preStep_empty (count : Str → ℕ) (budget : ℤ) :
    preStep count budget (some []) = preStep count budget none := by
  simp [preStep]

/-- C10: the empty-string system preamble is falsy for `if system_preamble:`
and is treated exactly like an absent preamble — no system message is
emitted — even though the token counter gives the empty string cost `0`
(so it would fit any budget). -/
theorem c10_empty_preamble (C : Collaborators) (cfg : FocusConfig)
    (items : List MemoryItem) (q : Str) (budget : ℤ) :
    tcCount [] = 0 ∧
    buildContext C cfg items q budget (some []) =
      buildContext C cfg items q budget none := by
  constructor
  · rfl
  · simp only [buildContext, preStep_empty]

/-! ### Token-cost accounting of the emitted messages (C2) -/

/-- The sum over the emitted turn messages of their token costs equals the
running `used` counter. -/
def PMsgSum (count : Str → ℕ) (st : PackState) : Prop :=
  ((st.tagged.map (fun t => count t.2.2)).sum = st.used)

lemma stubTry_psum (cfg : FocusConfig) (count : Str → ℕ) (d : Fidelity)
    (st : PackState) (it : MemoryItem) (h : PMsgSum count st) :
    PMsgSum count (stubTry cfg count d st it) := by
  unfold PMsgSum at h
  simp only [stubTry]
  split_ifs with hfit
  · simp only [PMsgSum, List.map_append, List.sum_append]
    simp [h]
  · exact h

lemma compTry_psum (C : Collaborators) (cfg : FocusConfig) (q : Str) (d : Fidelity)
    (st : PackState) (it : MemoryItem) (h : PMsgSum C.count st) :
    PMsgSum C.count (compTry C cfg q d st it) := by
  unfold PMsgSum at h
  rcases hct : it.compressedText with _ | c
  · simp only [compTry, hct, if_true, eq_self_iff_true]
    split_ifs with hfit
    · simp only [PMsgSum, List.map_append, List.sum_append]
      simp [h]
    · exact stubTry_psum _ _ _ _ _ h
  · cases hemp : c.isEmpty
    · simp only [compTry, hct, hemp, Option.getD_some, Bool.false_eq_true, if_false]
      split_ifs with hfit
      · simp only [PMsgSum, List.map_append, List.sum_append]
        simp [h]
      · exact stubTry_psum _ _ _ _ _ h
    · simp only [compTry, hct, hemp, if_true, eq_self_iff_true]
      split_ifs with hfit
      · simp only [PMsgSum, List.map_append, List.sum_append]
        simp [h]
      · exact stubTry_psum _ _ _ _ _ h

lemma fullTry_psum (C : Collaborators) (cfg : FocusConfig) (q : Str)
    (st : PackState) (it : MemoryItem)
    (hwf : it.tokenLen = C.count it.content) (h : PMsgSum C.count st) :
    PMsgSum C.count (fullTry C cfg q st it) := by
  unfold PMsgSum at h
  simp only [fullTry]
  split_ifs with hfit
  · simp only [PMsgSum, List.map_append, List.sum_append]
    simp [h, hwf]
  · exact compTry_psum C cfg q _ st it h

lemma packOne_psum (C : Collaborators) (cfg : FocusConfig) (q : Str)
    (plan : List (ℕ × Fidelity)) (st : PackState) (it : MemoryItem)
    (hwf : it.tokenLen = C.count it.content) (h : PMsgSum C.count st) :
    PMsgSum C.count (packOne C cfg q plan st it) := by
  unfold packOne
  cases (dictLookup plan it.id).getD Fidelity.PLACEHOLDER with
  | FULL => exact fullTry_psum C cfg q st it hwf h
  | COMPRESSED => exact compTry_psum C cfg q _ st it h
  | PLACEHOLDER => exact stubTry_psum cfg C.count _ st it h

lemma foldPack_psum (C : Collaborators) (cfg : FocusConfig) (q : Str)
    (plan : List (ℕ × Fidelity)) :
    ∀ (l : List MemoryItem) (st : PackState),
      (∀ it ∈ l, it.tokenLen = C.count it.content) → PMsgSum C.count st →
      PMsgSum C.count (l.foldl (packOne C cfg q plan) st) := by
  intro l
  induction l with
  | nil => intro st _ h; exact h
  | cons it rest ih =>
      intro st hwf h
      exact ih _ (fun x hx => hwf x (List.mem_cons_of_mem _ hx))
        (packOne_psum C cfg q plan st it (hwf it (List.mem_cons_self _ _)) h)

/-- C2 counterexample: the claim "the sum of the token costs of **all**
emitted context messages — including the system-preamble message — equals
`stats['used']`" is false: the code initializes `used_tokens` only *after*
the preamble has been added, so the preamble's cost is never counted.  With
no stored turns, budget 10 and preamble `"hi"` (cost 1), the emitted
messages cost 1 in total while `stats['used']` is 0. -/
theorem c2_counterexample :
    ¬ ((((buildContext ⟨fun _ => [0], tcCount, fun _ _ _ => []⟩ defaultFocusConfig
          [] "q".data 10 (some "hi".data)).messages.map
            (fun m => tcCount m.2)).sum) =
        (buildContext ⟨fun _ => [0], tcCount, fun _ _ _ => []⟩ defaultFocusConfig
          [] "q".data 10 (some "hi".data)).stats.used) := by
  decide

/-- C2 (amended): in every call to `build_context` (non-negative budget,
turns carrying their `add_message`-cached token lengths), the sum of the
token costs of the emitted context messages equals `stats['used']` *plus*
the cost of the emitted preamble messages; equivalently, the emitted turn
messages alone cost exactly `stats['used']`. -/
theorem c2_amended_used_sum (C : Collaborators) (cfg : FocusConfig)
    (items : List MemoryItem) (q : Str) (budget : ℤ) (pre : Option Str)
    (hwf : ∀ it ∈ items, it.tokenLen = C.count it.content) :
    (((buildContext C cfg items q budget pre).messages.map
        (fun m => C.count m.2)).sum) =
      (((buildContext C cfg items q budget pre).preMsgs.map
          (fun m => C.count m.2)).sum) +
        (buildContext C cfg items q budget pre).stats.used := by
  have h := foldPack_psum C cfg q
    ((scorePass C cfg items q).map (fun pr => (pr.2.id, planOf cfg pr.1)))
    (List.insertionSort (fun a b => a.id ≤ b.id)
      ((scorePass C cfg items q).map (fun pr => pr.2)))
    (initState (preStep C.count budget pre).2)
    (ordered_wf C cfg items q hwf)
    (by simp [PMsgSum, initState])
  unfold PMsgSum at h
  simp only [buildContext, packAll]
  simp [List.map_append, List.sum_append, List.map_map, Function.comp_def, h]

/-- C2 amended witness: a concrete instantiation of `c2_amended_used_sum`. -/
theorem c2_amended_used_sum_witness :
    (∀ it ∈ ([] : List MemoryItem),
      it.tokenLen = Collaborators.count ⟨fun _ => [0], tcCount, fun _ _ _ => []⟩ it.content) ∧
    (((buildContext ⟨fun _ => [0], tcCount, fun _ _ _ => []⟩ defaultFocusConfig
        [] "q".data 10 (some "ok".data)).messages.map
          (fun m => Collaborators.count ⟨fun _ => [0], tcCount, fun _ _ _ => []⟩ m.2)).sum) =
      (((buildContext ⟨fun _ => [0], tcCount, fun _ _ _ => []⟩ defaultFocusConfig
          [] "q".data 10 (some "ok".data)).preMsgs.map
            (fun m => Collaborators.count ⟨fun _ => [0], tcCount, fun _ _ _ => []⟩ m.2)).sum) +
        (buildContext ⟨fun _ => [0], tcCount, fun _ _ _ => []⟩ defaultFocusConfig
          [] "q".data 10 (some "ok".data)).stats.used :=
  ⟨by intro it hit; simp at hit,
   c2_amended_used_sum _ _ _ _ _ _ (by intro it hit; simp at hit)⟩

/-! ### Score formula (C5) -/

lemma scoreList_get (C : Collaborators) (cfg : FocusConfig) (qe : List ℝ) (n : ℕ) :
    ∀ (l : List MemoryItem) (idx p : ℕ) (h : p < (scoreList C cfg qe n idx l).length)
      (h' : p < l.length),
      (scoreList C cfg qe n idx l).get ⟨p, h⟩ =
        scoreStep C cfg qe n (idx + p) (l.get ⟨p, h'⟩) := by
  intro l
  induction l with
  | nil => intro idx p h h'; exact absurd h' (Nat.not_lt_zero p)
  | cons it rest ih =>
      intro idx p h h'
      cases p with
      | zero => simp [scoreList]
      | succ p' =>
          have hlen : p' < (scoreList C cfg qe n (idx + 1) rest).length := by
            rw [scoreList_length]
            exact Nat.lt_of_succ_lt_succ h'
          have hr : p' < rest.length := Nat.lt_of_succ_lt_succ h'
          have : (scoreList C cfg qe n idx (it :: rest)).get ⟨p' + 1, h⟩ =
              (scoreList C cfg qe n (idx + 1) rest).get ⟨p', hlen⟩ := rfl
          rw [this, ih (idx + 1) p' hlen hr]
          have harith : idx + 1 + p' = idx + (p' + 1) := by omega
          rw [harith]
          rfl

lemma scorePass_length (C : Collaborators) (cfg : FocusConfig)
    (items : List MemoryItem) (q : Str) :
    (scorePass C cfg items q).length = items.length :=
  scoreList_length C cfg (C.encode q) items.length items 0

lemma scorePass_get (C : Collaborators) (cfg : FocusConfig)
    (items : List MemoryItem) (q : Str) (p : ℕ)
    (hq : p < (scorePass C cfg items q).length) (hp : p < items.length) :
    (scorePass C cfg items q).get ⟨p, hq⟩ =
      scoreStep C cfg (C.encode q) items.length p (items.get ⟨p, hp⟩) := by
  have h := scoreList_get C cfg (C.encode q) items.length items 0 p hq hp
  simpa using h

/-- C5: the score of the stored turn at zero-based position `p` of `n` is
`max(0, similarity) * (0.25 + 0.75 * 0.5 ^ (turnsAgo / max(1, halfLife)))`
with `turnsAgo = (n - 1) - p`; it is recorded on the turn as `last_score`;
and for the most recent turn (`p = n - 1`, `turnsAgo = 0`) the recency
weight is exactly 1, so the score equals `max(0, similarity)`. -/
theorem c5_score_formula (C : Collaborators) (cfg : FocusConfig)
    (items : List MemoryItem) (q : Str) (p : ℕ)
    (hq : p < (scorePass C cfg items q).length) (hp : p < items.length) :
    ((scorePass C cfg items q).get ⟨p, hq⟩).1 =
      max 0 (cosine (C.encode q) (embUsed C (items.get ⟨p, hp⟩))) *
        (0.25 + 0.75 * (0.5 : ℝ) ^
          (((items.length - 1 - p : ℕ) : ℝ) /
            ((max 1 cfg.recencyHalfLife : ℤ) : ℝ))) ∧
    ((scorePass C cfg items q).get ⟨p, hq⟩).2.lastScore =
      ((scorePass C cfg items q).get ⟨p, hq⟩).1 ∧
    (p = items.length - 1 →
      ((scorePass C cfg items q).get ⟨p, hq⟩).1 =
        max 0 (cosine (C.encode q) (embUsed C (items.get ⟨p, hp⟩)))) := by
  rw [scorePass_get C cfg items q p hq hp]
  refine ⟨rfl, rfl, ?_⟩
  intro hlast
  subst hlast
  show scoreOf cfg _ _ _ = _
  rw [scoreOf, Nat.sub_self]
  rw [Nat.cast_zero, zero_div, Real.rpow_zero]
  norm_num

/-- The zero embedder / fallback token counter / empty compressor used as
concrete collaborators in witnesses and counterexamples. -/
noncomputable def czA : Collaborators :=
  { encode := fun _ => [0], count := tcCount, compress := fun _ _ _ => [] }

/-- A concrete stored turn (as `add_message` would produce it for content
`"hi"` under `czA`). -/
noncomputable def itmA : MemoryItem :=
  { id := 1
    role := "user".data
    content := "hi".data
    tokenLen := 1
    embedding := some [0]
    compressionState := Fidelity.FULL
    compressedText := none
    lastScore := 0 }

lemma itmA_len : 0 < ([itmA] : List MemoryItem).length := by norm_num

lemma itmA_score_len :
    0 < (scorePass czA defaultFocusConfig [itmA] "q".data).length := by
  rw [scorePass_length]
  norm_num

/-- C5 witness: a concrete instantiation of `c5_score_formula` with one
stored turn at position 0 (the most recent turn). -/
theorem c5_score_formula_witness :
    (0 < (scorePass czA defaultFocusConfig [itmA] "q".data).length) ∧
    (0 < ([itmA] : List MemoryItem).length) ∧
    (0 = ([itmA] : List MemoryItem).length - 1 →
      ((scorePass czA defaultFocusConfig [itmA] "q".data).get
          ⟨0, itmA_score_len⟩).1 =
        max 0 (cosine (czA.encode "q".data)
          (embUsed czA (([itmA] : List MemoryItem).get ⟨0, itmA_len⟩)))) :=
  ⟨itmA_score_len, itmA_len,
   (c5_score_formula czA defaultFocusConfig [itmA] "q".data 0
      itmA_score_len itmA_len).2.2⟩

/-! ### Construction-time config validation (C8) -/

/-- A `FocusConfig` that violates the documented requirement
`highThreshold > midThreshold`. -/
noncomputable def badFocusConfig : FocusConfig :=
  { highThreshold := 0.2
    midThreshold := 0.3
    recencyHalfLife := 12
    maxPlaceholderTokens := 12
    defaultCompressRatio := 0.35 }

/-- C8 (code bug evidence): `FocusManager.__init__` performs no validation,
so a config with `highThreshold <= midThreshold` is accepted silently: the
constructor returns a fully formed manager storing the invalid config, and
raises no error, contrary to the documented design ("rejected at
construction, not at call time"). -/
theorem c8_invalid_config_accepted :
    badFocusConfig.highThreshold ≤ badFocusConfig.midThreshold ∧
    (FocusManager.init ⟨fun _ => [0], tcCount, fun _ _ _ => []⟩
        (some badFocusConfig)).cfg = badFocusConfig ∧
    (FocusManager.init ⟨fun _ => [0], tcCount, fun _ _ _ => []⟩
        (some badFocusConfig)).items = [] ∧
    (FocusManager.init ⟨fun _ => [0], tcCount, fun _ _ _ => []⟩
        (some badFocusConfig)).nextId = 1 := by
  refine ⟨?_, rfl, rfl, rfl⟩
  rw [badFocusConfig]
  norm_num

/-! ### Stub size bound (C6): word-splitting lemmas -/
lemma pyWordsAux_split (c : Char) (hc : isWS c = true) (b : Str) :
    ∀ (a acc : Str),
      pyWordsAux (a ++ c :: b) acc = pyWordsAux (a ++ [c]) acc ++ pyWordsAux b [] := by
  intro a
  induction a with
  | nil =>
      intro acc
      simp only [List.nil_append, pyWordsAux, hc, if_true]
      split_ifs with hacc <;> simp [pyWordsAux, hacc]
  | cons x xs ih =>
      intro acc
      cases hx : isWS x
      · simp only [List.cons_append, pyWordsAux, hx]
        exact ih (x :: acc)
      · simp only [List.cons_append, pyWordsAux, hx, if_true]
        split_ifs with hacc <;> simp [ih]

lemma pyWordsAux_nonws :
    ∀ (l acc : Str), (∀ x ∈ l, isWS x = false) →
      pyWordsAux l acc = if acc.reverse ++ l = [] then [] else [acc.reverse ++ l] := by
  intro l
  induction l with
  | nil =>
      intro acc _
      simp only [pyWordsAux, List.append_nil]
      by_cases hacc : acc = []
      · simp [hacc]
      · have hne : acc.reverse ≠ [] := by simpa [List.reverse_eq_nil_iff] using hacc
        simp [hacc, hne]
  | cons x xs ih =>
      intro acc hl
      have hx : isWS x = false := hl x (List.mem_cons_self _ _)
      simp only [pyWordsAux, hx]
      rw [ih (x :: acc) (fun y hy => hl y (List.mem_cons_of_mem _ hy))]
      have : (x :: acc).reverse = acc.reverse ++ [x] := by simp
      rw [this, List.append_assoc]
      rfl

lemma pyWords_word (w : Str) (hw : w ≠ []) (hnw : ∀ x ∈ w, isWS x = false) :
    pyWords w = [w] := by
  rw [pyWords, pyWordsAux_nonws w [] hnw]
  simp [hw]

lemma pyWordsAux_mem :
    ∀ (l acc : Str), (∀ x ∈ acc, isWS x = false) →
      ∀ w ∈ pyWordsAux l acc, w ≠ [] ∧ ∀ x ∈ w, isWS x = false := by
  intro l
  induction l with
  | nil =>
      intro acc hacc w hw
      rw [pyWordsAux] at hw
      split_ifs at hw with h
      · simp at hw
      · simp at hw
        subst hw
        refine ⟨by simpa [List.reverse_eq_nil_iff] using h, ?_⟩
        intro x hx
        exact hacc x (List.mem_reverse.mp hx)
  | cons y ys ih =>
      intro acc hacc w hw
      rw [pyWordsAux] at hw
      by_cases hy : isWS y = true
      · rw [hy] at hw
        simp only [if_true] at hw
        split_ifs at hw with h
        · exact ih [] (by simp) w hw
        · rcases List.mem_cons.mp hw with h1 | h2
          · subst h1
            refine ⟨by simpa [List.reverse_eq_nil_iff] using h, ?_⟩
            intro x hx
            exact hacc x (List.mem_reverse.mp hx)
          · exact ih [] (by simp) w h2
      · have hy2 : isWS y = false := by
          cases h2 : isWS y
          · rfl
          · exact absurd h2 hy
        rw [hy2] at hw
        simp only [Bool.false_eq_true, if_false] at hw
        refine ih (y :: acc) ?_ w hw
        intro x hx
        rcases List.mem_cons.mp hx with h1 | h2
        · subst h1; exact hy2
        · exact hacc x h2

lemma pyWords_mem (t : Str) : ∀ w ∈ pyWords t, w ≠ [] ∧ ∀ x ∈ w, isWS x = false :=
  pyWordsAux_mem t [] (by simp)

lemma pyWords_split (c : Char) (hc : isWS c = true) (a b : Str) :
    pyWords (a ++ c :: b) = pyWords (a ++ [c]) ++ pyWords b :=
  pyWordsAux_split c hc b a []

lemma pyWordsAux_nonws_ws (c : Char) (hc : isWS c = true) :
    ∀ (l acc : Str), (∀ x ∈ l, isWS x = false) →
      pyWordsAux (l ++ [c]) acc =
        if acc.reverse ++ l = [] then [] else [acc.reverse ++ l] := by
  intro l
  induction l with
  | nil =>
      intro acc _
      simp only [List.nil_append, pyWordsAux, hc, if_true, List.append_nil]
      by_cases hacc : acc = []
      · simp [hacc, pyWordsAux]
      · have hne : acc.reverse ≠ [] := by simpa [List.reverse_eq_nil_iff] using hacc
        simp [hacc, hne, pyWordsAux]
  | cons x xs ih =>
      intro acc hl
      have hx : isWS x = false := hl x (List.mem_cons_self _ _)
      simp only [List.cons_append, pyWordsAux, hx, Bool.false_eq_true, if_false,
        List.append_eq]
      rw [ih (x :: acc) (fun y hy => hl y (List.mem_cons_of_mem _ hy))]
      have hrev : (x :: acc).reverse = acc.reverse ++ [x] := by simp
      rw [hrev, List.append_assoc]
      rfl

lemma pyWords_word_ws (w : Str) (hw : w ≠ []) (hnw : ∀ x ∈ w, isWS x = false)
    (c : Char) (hc : isWS c = true) : pyWords (w ++ [c]) = [w] := by
  rw [pyWords, pyWordsAux_nonws_ws c hc w [] hnw]
  simp [hw]

lemma pyWords_joinSp :
    ∀ (out : List Str), (∀ w ∈ out, w ≠ [] ∧ ∀ x ∈ w, isWS x = false) →
      pyWords (joinSp out) = out := by
  intro out
  induction out with
  | nil => intro _; rfl
  | cons w ws ih =>
      intro h
      cases ws with
      | nil =>
          obtain ⟨h1, h2⟩ := h w (List.mem_cons_self _ _)
          exact pyWords_word w h1 h2
      | cons w2 ws2 =>
          obtain ⟨h1, h2⟩ := h w (List.mem_cons_self _ _)
          have hjoin : joinSp (w :: w2 :: ws2) = w ++ ' ' :: joinSp (w2 :: ws2) := rfl
          rw [hjoin, pyWords_split ' ' (by decide) w (joinSp (w2 :: ws2)),
            pyWords_word_ws w h1 h2 ' ' (by decide),
            ih (fun x hx => h x (List.mem_cons_of_mem _ hx))]
          rfl

lemma truncGo_mem (count : Str → ℕ) (target : ℤ) :
    ∀ (ws : List Str) (used : ℤ) (x : Str),
      x ∈ truncGo count target ws used → x ∈ ws := by
  intro ws
  induction ws with
  | nil => intro used x h; simp [truncGo] at h
  | cons w rest ih =>
      intro used x h
      rw [truncGo] at h
      split_ifs at h with hgt
      · simp at h
      · rcases List.mem_cons.mp h with h1 | h2
        · subst h1; exact List.mem_cons_self _ _
        · exact List.mem_cons_of_mem _ (ih _ x h2)

lemma truncGo_len (count : Str → ℕ) (target : ℤ) :
    ∀ (ws : List Str), (∀ w ∈ ws, count w = 1) →
      ∀ used : ℤ, used + ((truncGo count target ws used).length : ℤ) ≤ max used target := by
  intro ws
  induction ws with
  | nil => intro _ used; simp [truncGo, le_max_left]
  | cons w rest ih =>
      intro h used
      have h1 : count w = 1 := h w (List.mem_cons_self _ _)
      rw [truncGo]
      split_ifs with hgt
      · simp [le_max_left]
      · have hcast : (count w : ℤ) = 1 := by rw [h1]; norm_num
        rw [hcast] at hgt ⊢
        have hrec := ih (fun x hx => h x (List.mem_cons_of_mem _ hx)) (used + 1)
        have hmax : max (used + 1) target = target := max_eq_right (by omega)
        rw [hmax] at hrec
        have hend : target ≤ max used target := le_max_right _ _
        simp only [List.length_cons]
        push_cast
        omega

lemma tcCount_word (w : Str) (hw : w ≠ []) (hnw : ∀ x ∈ w, isWS x = false) :
    tcCount w = 1 := by
  rw [tcCount, if_neg hw, pyWords_word w hw hnw]
  rfl

lemma stubPfx_ne_nil (it : MemoryItem) : stubPfx it ≠ [] := by
  rw [stubPfx]
  simp

lemma tcCount_stubPfx_append (it : MemoryItem) (s : Str) :
    pyWords (stubPfx it ++ s) = pyWords (stubPfx it) ++ pyWords s := by
  rw [stubPfx, List.append_assoc]
  rw [show ([' '] : Str) ++ s = ' ' :: s from rfl]
  rw [pyWords_split ' ' (by decide) (stubPfxCore it) s]

/-- C6 (amended): whenever the stub's reference marker costs strictly less
than `max_placeholder_tokens` (under the fallback token counter), the whole
stub costs at most `max_placeholder_tokens`.  (When the marker alone already
reaches the bound, `_make_stub` returns the stripped marker, whose cost can
exceed the bound — see the counterexample.) -/
theorem c6_amended_stub_bound (cfg : FocusConfig) (it : MemoryItem)
    (hpfx : (tcCount (stubPfx it) : ℤ) < cfg.maxPlaceholderTokens) :
    (tcCount (makeStub cfg tcCount it) : ℤ) ≤ cfg.maxPlaceholderTokens := by
  have hroom_pos : ¬ (max 0 (cfg.maxPlaceholderTokens - (tcCount (stubPfx it) : ℤ)) ≤ 0) := by
    omega
  simp only [makeStub]
  rw [if_neg hroom_pos]
  set room : ℤ := max 0 (cfg.maxPlaceholderTokens - (tcCount (stubPfx it) : ℤ)) with hroomdef
  have hroom : room = cfg.maxPlaceholderTokens - (tcCount (stubPfx it) : ℤ) := by omega
  set head := (((pyStrip it.content).takeWhile (fun c => c ≠ '\n')).take 200) with hheaddef
  set out := truncGo tcCount room (pyWords head) 0 with houtdef
  have hout : ∀ w ∈ out, w ≠ [] ∧ ∀ x ∈ w, isWS x = false := by
    intro w hw
    exact pyWords_mem head w (truncGo_mem tcCount room (pyWords head) 0 w hw)
  have hcnt1 : ∀ w ∈ pyWords head, tcCount w = 1 := by
    intro w hw
    obtain ⟨h1, h2⟩ := pyWords_mem head w hw
    exact tcCount_word w h1 h2
  have hlen : (out.length : ℤ) ≤ room := by
    have := truncGo_len tcCount room (pyWords head) hcnt1 0
    rw [zero_add] at this
    have hmax : max (0 : ℤ) room = room := max_eq_right (by omega)
    rw [hmax] at this
    exact this
  have hsplit : pyWords (stubPfx it ++ truncateToTokens head room tcCount) =
      pyWords (stubPfx it) ++ out := by
    rw [tcCount_stubPfx_append, truncateToTokens, pyWords_joinSp out hout]
  have hne : stubPfx it ++ truncateToTokens head room tcCount ≠ [] := by
    intro hcon
    rcases List.append_eq_nil.mp hcon with ⟨h1, _⟩
    exact stubPfx_ne_nil it h1
  rw [tcCount, if_neg hne, hsplit]
  have hcp : tcCount (stubPfx it) = max 1 (pyWords (stubPfx it)).length := by
    rw [tcCount, if_neg (stubPfx_ne_nil it)]
  rw [List.length_append]
  rw [Nat.cast_max]
  push_cast
  rw [hcp] at hpfx hroom
  rw [Nat.cast_max] at hpfx hroom
  push_cast at hpfx hroom
  omega

/-- A configuration whose `max_placeholder_tokens` is positive but smaller
than the cost of a stub's reference marker. -/
noncomputable def tinyStubConfig : FocusConfig :=
  { highThreshold := 0.55
    midThreshold := 0.30
    recencyHalfLife := 12
    maxPlaceholderTokens := 1
    defaultCompressRatio := 0.35 }

/-- C6 counterexample: with `max_placeholder_tokens = 1` (positive) the stub
for the turn `itmA` is the stripped reference marker `[ref #1 • user]`,
which costs 4 tokens under the fallback token counter — more than the bound.
The claim "every stub's token cost ≤ maxPlaceholderTokens" is false as
stated: `_make_stub` returns the bare marker whenever the marker alone
reaches the bound. -/
theorem c6_counterexample :
    (0 : ℤ) < tinyStubConfig.maxPlaceholderTokens ∧
    (tcCount (makeStub tinyStubConfig tcCount itmA) : ℤ) = 4 ∧
    ¬ ((tcCount (makeStub tinyStubConfig tcCount itmA) : ℤ) ≤
        tinyStubConfig.maxPlaceholderTokens) := by
  refine ⟨by decide, by decide, by decide⟩

/-- C6 amended witness: a concrete instantiation of
`c6_amended_stub_bound` (marker cost 4 < 12 = the default bound). -/
theorem c6_amended_stub_bound_witness :
    ((tcCount (stubPfx itmA) : ℤ) < defaultFocusConfig.maxPlaceholderTokens) ∧
    ((tcCount (makeStub defaultFocusConfig tcCount itmA) : ℤ) ≤
      defaultFocusConfig.maxPlaceholderTokens) :=
  ⟨by decide, c6_amended_stub_bound defaultFocusConfig itmA (by decide)⟩

/-! ### Memoized compressed text (C7) -/

lemma stubTry_calls (cfg : FocusConfig) (count : Str → ℕ) (d : Fidelity)
    (st : PackState) (it : MemoryItem) :
    (stubTry cfg count d st it).compCalls = st.compCalls := by
  simp only [stubTry]
  split_ifs with hfit <;> rfl

lemma isEmpty_false_of_ne_nil {c : Str} (hne : c ≠ []) : c.isEmpty = false := by
  cases c with
  | nil => exact absurd rfl hne
  | cons x xs => rfl

lemma compTry_calls_stored (C : Collaborators) (cfg : FocusConfig) (q : Str)
    (d : Fidelity) (st : PackState) (it : MemoryItem) (c : Str)
    (hct : it.compressedText = some c) (hne : c ≠ []) :
    (compTry C cfg q d st it).compCalls = st.compCalls := by
  have hemp := isEmpty_false_of_ne_nil hne
  simp only [compTry, hct, hemp, Option.getD_some, Bool.false_eq_true, if_false]
  split_ifs with hfit
  · rfl
  · exact stubTry_calls cfg C.count d st _

lemma packOne_calls_stored (C : Collaborators) (cfg : FocusConfig) (q : Str)
    (plan : List (ℕ × Fidelity)) (st : PackState) (it : MemoryItem) (c : Str)
    (hct : it.compressedText = some c) (hne : c ≠ []) :
    (packOne C cfg q plan st it).compCalls = st.compCalls := by
  unfold packOne
  cases (dictLookup plan it.id).getD Fidelity.PLACEHOLDER with
  | FULL =>
      simp only [fullTry]
      split_ifs with hfit
      · rfl
      · exact compTry_calls_stored C cfg q _ st it c hct hne
  | COMPRESSED => exact compTry_calls_stored C cfg q _ st it c hct hne
  | PLACEHOLDER => exact stubTry_calls cfg C.count _ st it

lemma stubTry_calls_ext (cfg : FocusConfig) (count : Str → ℕ) (d : Fidelity)
    (st : PackState) (it : MemoryItem) :
    ∃ s, (stubTry cfg count d st it).compCalls = st.compCalls ++ s ∧
      ∀ x ∈ s, x = it.id := by
  rw [stubTry_calls]
  exact ⟨[], by simp, by simp⟩

lemma compTry_calls_ext (C : Collaborators) (cfg : FocusConfig) (q : Str)
    (d : Fidelity) (st : PackState) (it : MemoryItem) :
    ∃ s, (compTry C cfg q d st it).compCalls = st.compCalls ++ s ∧
      ∀ x ∈ s, x = it.id := by
  rcases hct : it.compressedText with _ | c
  · simp only [compTry, hct, if_true, eq_self_iff_true]
    split_ifs with hfit
    · exact ⟨[it.id], rfl, by simp⟩
    · refine ⟨[it.id], ?_, by simp⟩
      rw [stubTry_calls]
  · cases hemp : c.isEmpty
    · simp only [compTry, hct, hemp, Option.getD_some, Bool.false_eq_true, if_false]
      split_ifs with hfit
      · exact ⟨[], by simp, by simp⟩
      · refine ⟨[], ?_, by simp⟩
        rw [stubTry_calls]
        simp
    · simp only [compTry, hct, hemp, if_true, eq_self_iff_true]
      split_ifs with hfit
      · exact ⟨[it.id], rfl, by simp⟩
      · refine ⟨[it.id], ?_, by simp⟩
        rw [stubTry_calls]

lemma packOne_calls_ext (C : Collaborators) (cfg : FocusConfig) (q : Str)
    (plan : List (ℕ × Fidelity)) (st : PackState) (it : MemoryItem) :
    ∃ s, (packOne C cfg q plan st it).compCalls = st.compCalls ++ s ∧
      ∀ x ∈ s, x = it.id := by
  unfold packOne
  cases (dictLookup plan it.id).getD Fidelity.PLACEHOLDER with
  | FULL =>
      simp only [fullTry]
      split_ifs with hfit
      · exact ⟨[], by simp, by simp⟩
      · exact compTry_calls_ext C cfg q _ st it
  | COMPRESSED => exact compTry_calls_ext C cfg q _ st it
  | PLACEHOLDER => exact stubTry_calls_ext cfg C.count _ st it

lemma foldPack_calls_notin (C : Collaborators) (cfg : FocusConfig) (q : Str)
    (plan : List (ℕ × Fidelity)) (k : ℕ) :
    ∀ (l : List MemoryItem) (st : PackState),
      (∀ it ∈ l, it.id = k → ∃ c, it.compressedText = some c ∧ c ≠ []) →
      k ∉ st.compCalls →
      k ∉ (l.foldl (packOne C cfg q plan) st).compCalls := by
  intro l
  induction l with
  | nil => intro st _ h; exact h
  | cons it rest ih =>
      intro st hl h
      refine ih _ (fun x hx => hl x (List.mem_cons_of_mem _ hx)) ?_
      by_cases hid : it.id = k
      · obtain ⟨c, hct, hne⟩ := hl it (List.mem_cons_self _ _) hid
        rw [packOne_calls_stored C cfg q plan st it c hct hne]
        exact h
      · obtain ⟨s, hs, hall⟩ := packOne_calls_ext C cfg q plan st it
        rw [hs]
        intro hcon
        rcases List.mem_append.mp hcon with h1 | h2
        · exact h h1
        · exact hid ((hall k h2).symm)

lemma stubTry_itemsOut_one (cfg : FocusConfig) (count : Str → ℕ) (d : Fidelity)
    (st : PackState) (it : MemoryItem) :
    ∃ o, (stubTry cfg count d st it).itemsOut = st.itemsOut ++ [o] ∧
      o.id = it.id ∧ o.compressedText = it.compressedText := by
  simp only [stubTry]
  split_ifs with hfit
  · exact ⟨_, rfl, rfl, rfl⟩
  · exact ⟨it, rfl, rfl, rfl⟩

lemma compTry_itemsOut_stored (C : Collaborators) (cfg : FocusConfig) (q : Str)
    (d : Fidelity) (st : PackState) (it : MemoryItem) (c : Str)
    (hct : it.compressedText = some c) (hne : c ≠ []) :
    ∃ o, (compTry C cfg q d st it).itemsOut = st.itemsOut ++ [o] ∧
      o.id = it.id ∧ o.compressedText = some c := by
  have hemp := isEmpty_false_of_ne_nil hne
  simp only [compTry, hct, hemp, Option.getD_some, Bool.false_eq_true, if_false]
  split_ifs with hfit
  · exact ⟨_, rfl, rfl, rfl⟩
  · obtain ⟨o, ho, hid, hpt⟩ := stubTry_itemsOut_one cfg C.count d st
      { it with compressedText := some c }
    exact ⟨o, ho, hid, hpt⟩

lemma packOne_itemsOut_stored (C : Collaborators) (cfg : FocusConfig) (q : Str)
    (plan : List (ℕ × Fidelity)) (st : PackState) (it : MemoryItem) (c : Str)
    (hct : it.compressedText = some c) (hne : c ≠ []) :
    ∃ o, (packOne C cfg q plan st it).itemsOut = st.itemsOut ++ [o] ∧
      o.id = it.id ∧ o.compressedText = some c := by
  unfold packOne
  cases (dictLookup plan it.id).getD Fidelity.PLACEHOLDER with
  | FULL =>
      simp only [fullTry]
      split_ifs with hfit
      · exact ⟨_, rfl, rfl, hct⟩
      · exact compTry_itemsOut_stored C cfg q _ st it c hct hne
  | COMPRESSED => exact compTry_itemsOut_stored C cfg q _ st it c hct hne
  | PLACEHOLDER =>
      obtain ⟨o, ho, hid, hpt⟩ := stubTry_itemsOut_one cfg C.count Fidelity.PLACEHOLDER st it
      exact ⟨o, ho, hid, by rw [hpt, hct]⟩

lemma stubTry_itemsOut_mono (cfg : FocusConfig) (count : Str → ℕ) (d : Fidelity)
    (st : PackState) (it : MemoryItem) :
    ∃ t, (stubTry cfg count d st it).itemsOut = st.itemsOut ++ t := by
  obtain ⟨o, ho, _⟩ := stubTry_itemsOut_one cfg count d st it
  exact ⟨[o], ho⟩

lemma compTry_itemsOut_mono (C : Collaborators) (cfg : FocusConfig) (q : Str)
    (d : Fidelity) (st : PackState) (it : MemoryItem) :
    ∃ t, (compTry C cfg q d st it).itemsOut = st.itemsOut ++ t := by
  rcases hct : it.compressedText with _ | c
  · simp only [compTry, hct, if_true, eq_self_iff_true]
    split_ifs with hfit
    · exact ⟨_, rfl⟩
    · exact stubTry_itemsOut_mono cfg C.count d _ _
  · cases hemp : c.isEmpty
    · simp only [compTry, hct, hemp, Option.getD_some, Bool.false_eq_true, if_false]
      split_ifs with hfit
      · exact ⟨_, rfl⟩
      · exact stubTry_itemsOut_mono cfg C.count d _ _
    · simp only [compTry, hct, hemp, if_true, eq_self_iff_true]
      split_ifs with hfit
      · exact ⟨_, rfl⟩
      · exact stubTry_itemsOut_mono cfg C.count d _ _

lemma packOne_itemsOut_mono (C : Collaborators) (cfg : FocusConfig) (q : Str)
    (plan : List (ℕ × Fidelity)) (st : PackState) (it : MemoryItem) :
    ∃ t, (packOne C cfg q plan st it).itemsOut = st.itemsOut ++ t := by
  unfold packOne
  cases (dictLookup plan it.id).getD Fidelity.PLACEHOLDER with
  | FULL =>
      simp only [fullTry]
      split_ifs with hfit
      · exact ⟨_, rfl⟩
      · exact compTry_itemsOut_mono C cfg q _ st it
  | COMPRESSED => exact compTry_itemsOut_mono C cfg q _ st it
  | PLACEHOLDER => exact stubTry_itemsOut_mono cfg C.count _ st it

lemma foldPack_itemsOut_mono (C : Collaborators) (cfg : FocusConfig) (q : Str)
    (plan : List (ℕ × Fidelity)) :
    ∀ (l : List MemoryItem) (st : PackState),
      ∃ t, (l.foldl (packOne C cfg q plan) st).itemsOut = st.itemsOut ++ t := by
  intro l
  induction l with
  | nil => intro st; exact ⟨[], by simp⟩
  | cons it rest ih =>
      intro st
      obtain ⟨s, hs⟩ := packOne_itemsOut_mono C cfg q plan st it
      obtain ⟨t, ht⟩ := ih (packOne C cfg q plan st it)
      exact ⟨s ++ t, by rw [List.foldl_cons, ht, hs, List.append_assoc]⟩

lemma foldPack_itemsOut_mem (C : Collaborators) (cfg : FocusConfig) (q : Str)
    (plan : List (ℕ × Fidelity)) (c : Str) (hne : c ≠ []) :
    ∀ (l : List MemoryItem) (st : PackState) (it : MemoryItem),
      it ∈ l → it.compressedText = some c →
      ∃ o ∈ (l.foldl (packOne C cfg q plan) st).itemsOut,
        o.id = it.id ∧ o.compressedText = some c := by
  intro l
  induction l with
  | nil => intro st it hmem; exact absurd hmem (List.not_mem_nil it)
  | cons x rest ih =>
      intro st it hmem hct
      rcases List.mem_cons.mp hmem with h1 | h2
      · subst h1
        obtain ⟨o, ho, hid, hpt⟩ := packOne_itemsOut_stored C cfg q plan st it c hct hne
        obtain ⟨t, ht⟩ := foldPack_itemsOut_mono C cfg q plan rest (packOne C cfg q plan st it)
        refine ⟨o, ?_, hid, hpt⟩
        rw [List.foldl_cons, ht, ho]
        simp
      · exact ih (packOne C cfg q plan st x) it h2 hct

lemma scoreList_mem_fwd (C : Collaborators) (cfg : FocusConfig) (qe : List ℝ) (n : ℕ) :
    ∀ (l : List MemoryItem) (idx : ℕ) (it : MemoryItem), it ∈ l →
      ∃ pr ∈ scoreList C cfg qe n idx l,
        pr.2.id = it.id ∧ pr.2.compressedText = it.compressedText := by
  intro l
  induction l with
  | nil => intro idx it hmem; exact absurd hmem (List.not_mem_nil it)
  | cons x rest ih =>
      intro idx it hmem
      rcases List.mem_cons.mp hmem with h1 | h2
      · subst h1
        refine ⟨scoreStep C cfg qe n idx it, ?_, ?_, ?_⟩
        · rw [scoreList]; exact List.mem_cons_self _ _
        · simp [scoreStep]
        · simp [scoreStep]
      · obtain ⟨pr, hpr, hp⟩ := ih (idx + 1) it h2
        refine ⟨pr, ?_, hp⟩
        rw [scoreList]
        exact List.mem_cons_of_mem _ hpr

/-- C7 (amended): once a turn carries a stored *non-empty* compressed text,
`build_context` reuses it: the compressor is not invoked for that turn and
the stored value is preserved unchanged on the turn.  (A stored *empty*
compressed text is falsy for `it.compressed_text or compress_item(it)` and
is recomputed — see the counterexample.) -/
theorem c7_amended_memoized (C : Collaborators) (cfg : FocusConfig)
    (items : List MemoryItem) (q : Str) (budget : ℤ) (pre : Option Str)
    (it : MemoryItem) (c : Str)
    (hmem : it ∈ items) (hct : it.compressedText = some c) (hne : c ≠ [])
    (hnd : (items.map (fun x => x.id)).Nodup) :
    it.id ∉ (buildContext C cfg items q budget pre).compressCalls ∧
    ∃ o ∈ (buildContext C cfg items q budget pre).itemsOut,
      o.id = it.id ∧ o.compressedText = some c := by
  have hmemord : ∀ y ∈ List.insertionSort (fun a b => a.id ≤ b.id)
      ((scorePass C cfg items q).map (fun pr => pr.2)),
      ∃ x ∈ items, y.id = x.id ∧ y.compressedText = x.compressedText := by
    intro y hy
    have hy1 : y ∈ (scorePass C cfg items q).map (fun pr => pr.2) :=
      (List.Perm.mem_iff (List.perm_insertionSort _ _)).mp hy
    obtain ⟨pr, hpr, hpr2⟩ := List.mem_map.mp hy1
    obtain ⟨x, hx, hid, _, _, _, hctx⟩ := scoreList_mem C cfg _ _ items 0 pr hpr
    refine ⟨x, hx, ?_, ?_⟩
    · rw [← hpr2]; exact hid
    · rw [← hpr2]; exact hctx
  constructor
  · have hcond : ∀ y ∈ List.insertionSort (fun a b => a.id ≤ b.id)
        ((scorePass C cfg items q).map (fun pr => pr.2)),
        y.id = it.id → ∃ c2, y.compressedText = some c2 ∧ c2 ≠ [] := by
      intro y hy hid
      obtain ⟨x, hx, hidx, hctx⟩ := hmemord y hy
      have hxid : x.id = it.id := by rw [← hidx, hid]
      have hx_eq : x = it := List.inj_on_of_nodup_map hnd hx hmem hxid
      refine ⟨c, ?_, hne⟩
      rw [hctx, hx_eq, hct]
    have hnotin := foldPack_calls_notin C cfg q
      ((scorePass C cfg items q).map (fun pr => (pr.2.id, planOf cfg pr.1)))
      it.id
      (List.insertionSort (fun a b => a.id ≤ b.id)
        ((scorePass C cfg items q).map (fun pr => pr.2)))
      (initState (preStep C.count budget pre).2)
      hcond (by simp [initState])
    simp only [buildContext, packAll]
    exact hnotin
  · obtain ⟨pr, hpr, hprid, hprct⟩ :=
      scoreList_mem_fwd C cfg (C.encode q) items.length items 0 it hmem
    have hy : pr.2 ∈ List.insertionSort (fun a b => a.id ≤ b.id)
        ((scorePass C cfg items q).map (fun pr => pr.2)) := by
      refine (List.Perm.mem_iff (List.perm_insertionSort _ _)).mpr ?_
      exact List.mem_map.mpr ⟨pr, hpr, rfl⟩
    have hyc : pr.2.compressedText = some c := by rw [hprct, hct]
    obtain ⟨o, ho, hoid, hoct⟩ := foldPack_itemsOut_mem C cfg q
      ((scorePass C cfg items q).map (fun pr2 => (pr2.2.id, planOf cfg pr2.1)))
      c hne
      (List.insertionSort (fun a b => a.id ≤ b.id)
        ((scorePass C cfg items q).map (fun pr => pr.2)))
      (initState (preStep C.count budget pre).2)
      pr.2 hy hyc
    refine ⟨o, ?_, by rw [hoid, hprid], hoct⟩
    simp only [buildContext, packAll]
    exact ho

/-- A concrete stored turn carrying a non-empty memoized compressed text. -/
noncomputable def itmC : MemoryItem :=
  { id := 1
    role := "user".data
    content := "hi".data
    tokenLen := 1
    embedding := some [0]
    compressionState := Fidelity.FULL
    compressedText := some ['x']
    lastScore := 0 }

/-- C7 amended witness: a concrete instantiation of `c7_amended_memoized`. -/
theorem c7_amended_memoized_witness :
    itmC ∈ ([itmC] : List MemoryItem) ∧
    itmC.compressedText = some ['x'] ∧ (['x'] : Str) ≠ [] ∧
    (([itmC] : List MemoryItem).map (fun x => x.id)).Nodup ∧
    (itmC.id ∉ (buildContext czA defaultFocusConfig [itmC] "q".data 9 none).compressCalls ∧
     ∃ o ∈ (buildContext czA defaultFocusConfig [itmC] "q".data 9 none).itemsOut,
       o.id = itmC.id ∧ o.compressedText = some ['x']) :=
  ⟨List.mem_singleton.mpr rfl, rfl, by decide, by simp,
   c7_amended_memoized czA defaultFocusConfig [itmC] "q".data 9 none itmC ['x']
     (List.mem_singleton.mpr rfl) rfl (by decide) (by simp)⟩

/-- A configuration whose thresholds plan every zero-scored turn as
COMPRESSED (`highThreshold = 1 > 0`, `midThreshold = -1 ≤ 0`). -/
noncomputable def cfgCE : FocusConfig :=
  { highThreshold := 1
    midThreshold := -1
    recencyHalfLife := 1
    maxPlaceholderTokens := 12
    defaultCompressRatio := 0.35 }

/-- The turn `itmA` as it comes out of a `build_context` call under `cfgCE`
with the empty-returning compressor: packed COMPRESSED, with the *empty*
compressed text stored. -/
noncomputable def itmB : MemoryItem :=
  { id := 1
    role := "user".data
    content := "hi".data
    tokenLen := 1
    embedding := some [0]
    compressionState := Fidelity.COMPRESSED
    compressedText := some []
    lastScore := 0 }

lemma cosine_zz : cosine [(0:ℝ)] [(0:ℝ)] = 0 := by
  norm_num [cosine]

lemma scoreOf_zero (cfg : FocusConfig) (n idx : ℕ) : scoreOf cfg 0 n idx = 0 := by
  rw [scoreOf]
  norm_num

lemma planOf_cfgCE_zero : planOf cfgCE 0 = Fidelity.COMPRESSED := by
  rw [planOf]
  rw [if_neg (by norm_num [cfgCE]), if_pos (by norm_num [cfgCE])]

lemma c7ce_call1 :
    (buildContext czA cfgCE [itmA] "q".data 100 none).itemsOut = [itmB] := by
  have hsp : scorePass czA cfgCE [itmA] "q".data = [(0, itmA)] := by
    rw [scorePass]
    show scoreStep czA cfgCE (czA.encode "q".data) 1 0 itmA :: [] = [(0, itmA)]
    rw [scoreStep]
    simp only [czA, embUsed, itmA]
    norm_num [cosine_zz, scoreOf_zero]
  simp only [buildContext, hsp]
  simp only [List.map_cons, List.map_nil, planOf_cfgCE_zero]
  simp only [packAll, List.insertionSort, List.orderedInsert, List.foldl]
  rw [packOne]
  simp only [dictLookup, List.filter, List.map_cons, List.map_nil]
  norm_num
  rw [compTry]
  simp only [itmA, czA]
  norm_num [initState, preStep, tcCount, itmB]

lemma c7ce_call2 :
    (buildContext czA cfgCE [itmB] "q".data 100 none).compressCalls = [1] := by
  have hsp : scorePass czA cfgCE [itmB] "q".data = [(0, itmB)] := by
    rw [scorePass]
    show scoreStep czA cfgCE (czA.encode "q".data) 1 0 itmB :: [] = [(0, itmB)]
    rw [scoreStep]
    simp only [czA, embUsed, itmB]
    norm_num [cosine_zz, scoreOf_zero]
  simp only [buildContext, hsp]
  simp only [List.map_cons, List.map_nil, planOf_cfgCE_zero]
  simp only [packAll, List.insertionSort, List.orderedInsert, List.foldl]
  rw [packOne]
  simp only [dictLookup, List.filter, List.map_cons, List.map_nil]
  norm_num
  rw [compTry]
  simp only [itmB, czA]
  norm_num [initState, preStep, tcCount]

/-- C7 counterexample: `comp = it.compressed_text or compress_item(it)`
treats a stored *empty* compressed text as falsy.  Under a compressor that
returns the empty string (legitimate: the shortener contract returns the
input unchanged when it already fits, so an empty input yields an empty
output), a first `build_context` call stores the empty compressed text on
the turn, and the next call — same turns, same query — invokes the
compressor for that turn again instead of reusing the stored value.  This
falsifies the claim that the memoized shortened text is computed at most
once per turn. -/
theorem c7_counterexample :
    ((buildContext czA cfgCE [itmA] "q".data 100 none).itemsOut.head?.map
        (fun o => o.compressedText)) = some (some []) ∧
    1 ∈ (buildContext czA cfgCE
          ((buildContext czA cfgCE [itmA] "q".data 100 none).itemsOut)
          "q".data 100 none).compressCalls := by
  rw [c7ce_call1]
  constructor
  · rfl
  · rw [c7ce_call2]
    exact List.mem_singleton.mpr rfl

/-! ### add_message justifies the store hypotheses used above -/

/-- `add_message` caches exactly `count(content)` as the turn's token length,
assigns the next id, appends the turn, and leaves the compressed-text memo
empty — so every store built through `add_message` satisfies the
well-formedness hypotheses assumed by the theorems above. -/
theorem addMessage_spec (C : Collaborators) (items : List MemoryItem)
    (nextId : ℕ) (role content : Str) :
    (addMessage C items nextId role content).2.2.tokenLen =
      C.count (addMessage C items nextId role content).2.2.content ∧
    (addMessage C items nextId role content).1 =
      items ++ [(addMessage C items nextId role content).2.2] ∧
    (addMessage C items nextId role content).2.2.id = nextId ∧
    (addMessage C items nextId role content).2.2.compressedText = none ∧
    (addMessage C items nextId role content).2.1 = nextId + 1 :=
  ⟨rfl, rfl, rfl, rfl, rfl⟩

/-- Appending via `add_message` preserves the strictly-increasing-ids store
invariant (ids below `_next_id`, pairwise ascending). -/
theorem addMessage_ids (C : Collaborators) (items : List MemoryItem)
    (nextId : ℕ) (role content : Str)
    (hlt : ∀ it ∈ items, it.id < nextId)
    (hp : items.Pairwise (fun a b => a.id < b.id)) :
    (addMessage C items nextId role content).1.Pairwise (fun a b => a.id < b.id) ∧
    (∀ it ∈ (addMessage C items nextId role content).1,
      it.id < (addMessage C items nextId role content).2.1) := by
  constructor
  · rw [addMessage]
    refine List.pairwise_append.mpr ⟨hp, List.pairwise_singleton _ _, ?_⟩
    intro a ha b hb
    simp only [List.mem_singleton] at hb
    subst hb
    exact hlt a ha
  · intro it hit
    rw [addMessage] at hit
    rcases List.mem_append.mp hit with h1 | h2
    · exact Nat.lt_succ_of_lt (hlt it h1)
    · simp only [List.mem_singleton] at h2
      subst h2
      exact Nat.lt_succ_self nextId
